import Mathlib

/-!
Verification of the Othello engine (`src/main.cpp`) against its
natural-language specification.

The board `char board[8][8]` is embedded as a flat `List Char` of 64 cells in
row-major order, matching the C memory layout (`board[r][c]` is the flat index
`8*r + c`).  A read of `board[r][c]` is modelled by `getMem` on the flat index:
it returns `some` for any index inside the 64-byte allocation — including
indices such as `8*r - 1` produced when the code walks past the left edge,
which in C read the previous row — and `none` when the access leaves the
allocation entirely (undefined behaviour).  `none` is propagated by every
function that can perform such a read, so an `Option`-valued result of `none`
marks a run of the program with undefined behaviour.
-/

/-- A board is the flat 64-cell row-major image of `char board[8][8]`. -/
abbrev Board := List Char

/-- Read of the flat memory of the 8×8 char array: defined inside the
64-byte allocation, `none` (undefined behaviour) outside it. -/
def getMem (board : Board) (idx : Int) : Option Char :=
  if 0 ≤ idx ∧ idx < 64 then board.get? idx.toNat else none

/-- `board[r][c]` as executed: flat access at `8*r + c`. -/
def readMem (board : Board) (r c : Int) : Option Char :=
  getMem board (8 * r + c)

/-- In-grid cell lookup: `some` only when both coordinates are in `[0,7]`.
Used for the spec-side definitions and for the grid-checked variant of
`isFlippable` (claim C2). -/
def cellAt (board : Board) (r c : Int) : Option Char :=
  if 0 ≤ r ∧ r < 8 ∧ 0 ≤ c ∧ c < 8 then board.get? (8 * r + c).toNat else none

/-- `(player == 'b') ? 'w' : 'b'` (main.cpp line 35/112). -/
def otherPlayer (player : Char) : Char :=
  if player = 'b' then 'w' else 'b'

/-- The eight direction deltas (main.cpp lines 38-40 / 115-117). -/
def surroundingPosDeltas : List (Int × Int) :=
  [(-1, -1), (-1, 0), (-1, 1), (0, -1), (0, 1), (1, -1), (1, 0), (1, 1)]

/-- The off-board test as written in `isFlippable` (main.cpp line 144):
`curr_row > 7 || curr_row < 0 || curr_col > 7 || curr_row < 0`.
Note the fourth disjunct repeats `curr_row < 0`; a negative column is
never detected. -/
def offBoardBuggy (r c : Int) : Bool :=
  r > 7 || r < 0 || c > 7 || r < 0

/-- The correct off-board test used in `flip` (main.cpp lines 51 and 71)
and in the skip test of `isFlippable` (line 123). -/
def offBoard (r c : Int) : Bool :=
  r > 7 || r < 0 || c > 7 || c < 0

/-- The directional walk of `isFlippable` (main.cpp lines 139-149):
starting from a neighbour cell whose character is `ch`, keep stepping by
`(dr, dc)` while the character equals `other`; the loop's own bound check is
the buggy `offBoardBuggy`.  Returns the character in hand when the loop
exits, `none` if a read leaves the allocation (undefined behaviour).
The fuel argument strictly exceeds the number of steps any walk can make
inside the 64-byte allocation. -/
def flipSearch (board : Board) (other : Char) (dr dc : Int) :
    Nat → Int → Int → Char → Option Char
  | 0, _, _, _ => none
  | fuel + 1, r, c, ch =>
    if ch = other then
      if offBoardBuggy (r + dr) (c + dc) then some ch
      else
        match readMem board (r + dr) (c + dc) with
        | none => none
        | some ch2 => flipSearch board other dr dc fuel (r + dr) (c + dc) ch2
    else some ch

/-- The direction loop of `isFlippable` (main.cpp lines 120-155). -/
def isFlippableGo (board : Board) (row col : Int) (player other : Char) :
    List (Int × Int) → Option Bool
  | [] => some false
  | (dr, dc) :: rest =>
    if offBoard (row + dr) (col + dc) then
      isFlippableGo board row col player other rest
    else
      match readMem board (row + dr) (col + dc) with
      | none => none
      | some ch =>
        if ch = other then
          match flipSearch board other dr dc 100 (row + dr) (col + dc) ch with
          | none => none
          | some last =>
            if last = player then some true
            else isFlippableGo board row col player other rest
        else isFlippableGo board row col player other rest

/-- `isFlippable` (main.cpp lines 111-159): true when placing `player` at
`(row, col)` flips at least one disc, as the code actually computes it. -/
def isFlippable (board : Board) (row col : Int) (player : Char) : Option Bool :=
  isFlippableGo board row col player (otherPlayer player) surroundingPosDeltas

/-- The 64 coordinates in row-major order, as scanned by
`calculateLegalMoves` (main.cpp lines 177-178). -/
def coordList : List (Int × Int) :=
  (List.range 8).flatMap fun i => (List.range 8).map fun j => ((i : Int), (j : Int))

/-- The scan loop of `calculateLegalMoves` (main.cpp lines 177-192). -/
def calcLegalGo (board : Board) (player : Char) :
    List (Int × Int) → Option (List (Int × Int))
  | [] => some []
  | (i, j) :: rest =>
    match readMem board i j with
    | none => none
    | some ch =>
      if ch = '-' then
        match isFlippable board i j player with
        | none => none
        | some true => (calcLegalGo board player rest).map (((i, j)) :: ·)
        | some false => calcLegalGo board player rest
      else calcLegalGo board player rest

/-- `calculateLegalMoves` (main.cpp lines 172-196). -/
def calculateLegalMoves (board : Board) (player : Char) :
    Option (List (Int × Int)) :=
  calcLegalGo board player coordList

/-! ### Spec-side capture notions (from the specification's words)

"for each of the 8 compass directions from (r,c), walk outward while cells
hold the opponent's piece; the move is a legal capture in that direction if
the walk is non-empty and terminates on a cell holding the mover's own piece
(walking off the grid edge invalidates that direction)". -/

/-- Spec-side: the maximal straight run of `other`-cells starting at `(r, c)`
and stepping by `(dr, dc)`, never leaving the grid. -/
def captureRun (board : Board) (other : Char) (dr dc : Int) :
    Nat → Int → Int → List (Int × Int)
  | 0, _, _ => []
  | fuel + 1, r, c =>
    match cellAt board r c with
    | some ch =>
      if ch = other then (r, c) :: captureRun board other dr dc fuel (r + dr) (c + dc)
      else []
    | none => []

/-- Spec-side: the character on the grid cell just past the maximal
`other`-run from `(r, c)`, or `none` when the walk leaves the grid. -/
def captureEnd (board : Board) (other : Char) (dr dc : Int) :
    Nat → Int → Int → Option Char
  | 0, _, _ => none
  | fuel + 1, r, c =>
    match cellAt board r c with
    | some ch =>
      if ch = other then captureEnd board other dr dc fuel (r + dr) (c + dc)
      else some ch
    | none => none

/-- Spec-side: direction `(dr, dc)` qualifies as a capture for `player`
placing at `(r, c)`: starting at the neighbour, a non-empty run of the
opponent's pieces terminates, still on the grid, on the mover's own piece. -/
def dirCaptures (board : Board) (r c dr dc : Int) (player : Char) : Bool :=
  decide (captureRun board (otherPlayer player) dr dc 64 (r + dr) (c + dc) ≠ []) &&
  decide (captureEnd board (otherPlayer player) dr dc 64 (r + dr) (c + dc) = some player)

/-- Spec-side: the move `(r, c)` is legal for `player` — the cell is Empty
and at least one compass direction qualifies. -/
def specLegalMove (board : Board) (r c : Int) (player : Char) : Bool :=
  decide (cellAt board r c = some '-') &&
  surroundingPosDeltas.any fun d => dirCaptures board r c d.1 d.2 player

/-- Spec-side: all legal moves in row-major order. -/
def specLegalMoves (board : Board) (player : Char) : List (Int × Int) :=
  coordList.filter fun m => specLegalMove board m.1 m.2 player

/-! ### Grid-checked variant of `isFlippable` (claim C2)

The same translation of lines 111-159, except that every board read is the
in-grid `cellAt`: a read with a coordinate outside `[0,7]` takes the `none`
branch.  Claim C2 asserts that branch is unreachable. -/

/-- The walk of lines 139-149 with grid-checked reads. -/
def flipSearchChecked (board : Board) (other : Char) (dr dc : Int) :
    Nat → Int → Int → Char → Option Char
  | 0, _, _, _ => none
  | fuel + 1, r, c, ch =>
    if ch = other then
      if offBoardBuggy (r + dr) (c + dc) then some ch
      else
        match cellAt board (r + dr) (c + dc) with
        | none => none
        | some ch2 => flipSearchChecked board other dr dc fuel (r + dr) (c + dc) ch2
    else some ch

/-- The direction loop of lines 120-155 with grid-checked reads. -/
def isFlippableCheckedGo (board : Board) (row col : Int) (player other : Char) :
    List (Int × Int) → Option Bool
  | [] => some false
  | (dr, dc) :: rest =>
    if offBoard (row + dr) (col + dc) then
      isFlippableCheckedGo board row col player other rest
    else
      match cellAt board (row + dr) (col + dc) with
      | none => none
      | some ch =>
        if ch = other then
          match flipSearchChecked board other dr dc 100 (row + dr) (col + dc) ch with
          | none => none
          | some last =>
            if last = player then some true
            else isFlippableCheckedGo board row col player other rest
        else isFlippableCheckedGo board row col player other rest

/-- `isFlippable` with every read grid-checked (total embedding of claim C2). -/
def isFlippableChecked (board : Board) (row col : Int) (player : Char) :
    Option Bool :=
  isFlippableCheckedGo board row col player (otherPlayer player) surroundingPosDeltas

/-! ### Concrete boards for the bound-check defect (claims C1 and C2) -/

/-- Board with White at (2,0) and Black at (1,7), otherwise empty. -/
def boardC1 : Board := List.flatten (List.map String.toList
  [ "--------"
  , "-------b"
  , "w-------"
  , "--------"
  , "--------"
  , "--------"
  , "--------"
  , "--------" ])

/-- Board with White at (2,0) only. -/
def boardC2 : Board := List.flatten (List.map String.toList
  [ "--------"
  , "--------"
  , "w-------"
  , "--------"
  , "--------"
  , "--------"
  , "--------"
  , "--------" ])

/-- C1: the code's legal-move list is *not* characterised by the spec's
capture rule.  On `boardC1`, Black has no legal move under the rule (the
only candidate direction, leftward from (2,1), walks off the grid), yet
`calculateLegalMoves` returns `[(2,1)]`: the walk misses the left edge
(the repeated `curr_row < 0` test of line 144), reads the flat memory at
index `8*2 - 1` — cell (1,7), holding `b` — and declares the capture. -/
theorem calculateLegalMoves_wraps_left_edge :
    calculateLegalMoves boardC1 'b' = some [(2, 1)] ∧
    specLegalMoves boardC1 'b' = [] := by decide

/-- C2: the directional walk of `isFlippable` does read out-of-range cells.
On `boardC2` (White at (2,0) alone), probing (2,1) for Black walks left to
column -1: the buggy bound check passes it, the grid-checked read takes the
`none` branch the claim says is unreachable. -/
theorem isFlippable_reads_off_grid :
    isFlippableChecked boardC2 2 1 'b' = none ∧
    offBoardBuggy 2 (-1) = false ∧ offBoard 2 (-1) = true := by decide

/-! ### `flip` and `makeMove` (main.cpp lines 30-108 and 162-169) -/

/-- Write of `board[r][c] = ch` at the flat index `8*r + c`.  Every write the
program performs is at an in-grid coordinate. -/
def setMem (board : Board) (r c : Int) (ch : Char) : Board :=
  board.set (8 * r + c).toNat ch

/-- The probing walk of `flip` (main.cpp lines 66-76): like the walk of
`isFlippable` but with the correct bound check of line 71. -/
def flipScan (board : Board) (other : Char) (dr dc : Int) :
    Nat → Int → Int → Char → Option Char
  | 0, _, _, _ => none
  | fuel + 1, r, c, ch =>
    if ch = other then
      if offBoard (r + dr) (c + dc) then some ch
      else
        match readMem board (r + dr) (c + dc) with
        | none => none
        | some ch2 => flipScan board other dr dc fuel (r + dr) (c + dc) ch2
    else some ch

/-- The collecting walk of `flip` (main.cpp lines 90-99): pushes every
position holding the opponent's piece; its reads carry no bound check. -/
def flipCollect (board : Board) (other : Char) (dr dc : Int) :
    Nat → Int → Int → Char → Option (List (Int × Int))
  | 0, _, _, _ => none
  | fuel + 1, r, c, ch =>
    if ch = other then
      match readMem board (r + dr) (c + dc) with
      | none => none
      | some ch2 =>
        (flipCollect board other dr dc fuel (r + dr) (c + dc) ch2).map ((r, c) :: ·)
    else some []

/-- The body of `flip`'s direction loop for one delta (main.cpp lines 43-102):
the positions this direction contributes to `discs_to_flip`. -/
def flipDir (board : Board) (row col : Int) (player other : Char)
    (dr dc : Int) : Option (List (Int × Int)) :=
  if offBoard (row + dr) (col + dc) then some []
  else
    match readMem board (row + dr) (col + dc) with
    | none => none
    | some ch =>
      if ch = other then
        match flipScan board other dr dc 100 (row + dr) (col + dc) ch with
        | none => none
        | some last =>
          if last = player then
            flipCollect board other dr dc 100 (row + dr) (col + dc) ch
          else some []
      else some []

/-- `discs_to_flip` accumulated over all eight deltas (main.cpp lines 43-103). -/
def flipGather (board : Board) (row col : Int) (player other : Char) :
    List (Int × Int) → Option (List (Int × Int))
  | [] => some []
  | d :: rest =>
    match flipDir board row col player other d.1 d.2 with
    | none => none
    | some l => (flipGather board row col player other rest).map (l ++ ·)

namespace Othello

/-- `flip` (main.cpp lines 30-108): collect the discs to flip in every
direction, then overwrite each collected position with `player`.  (Namespaced
because the core library already declares a `flip`.) -/
def flip (board : Board) (row col : Int) (player : Char) : Option Board :=
  (flipGather board row col player (otherPlayer player) surroundingPosDeltas).map
    fun discs => discs.foldl (fun b pos => setMem b pos.1 pos.2 player) board

end Othello

/-- `makeMove` (main.cpp lines 162-169): place the disc, then flip. -/
def makeMove (board : Board) (row col : Int) (player : Char) : Option Board :=
  Othello.flip (setMem board row col player) row col player

/-! ### Scoring, game end, heuristic (main.cpp lines 222-345) -/

/-- `getBlackLegalMoves` (main.cpp lines 222-224). -/
def getBlackLegalMoves (board : Board) : Option (List (Int × Int)) :=
  calculateLegalMoves board 'b'

/-- `getWhiteLegalMoves` (main.cpp lines 227-229). -/
def getWhiteLegalMoves (board : Board) : Option (List (Int × Int)) :=
  calculateLegalMoves board 'w'

/-- `isGameOver` (main.cpp lines 272-274); `&&` short-circuits, so the white
move list is only computed when black's is empty. -/
def isGameOver (board : Board) : Option Bool :=
  match getBlackLegalMoves board with
  | none => none
  | some bl =>
    if bl.isEmpty then
      match getWhiteLegalMoves board with
      | none => none
      | some wl => some wl.isEmpty
    else some false

/-- `getScore` (main.cpp lines 277-285): count of `player`'s pieces. -/
def getScore (board : Board) (player : Char) : Int :=
  coordList.foldl (fun t m => if readMem board m.1 m.2 = some player then t + 1 else t) 0

/-- The corner terms of `heuristic` (main.cpp lines 318-341). -/
def cornerBonus (board : Board) (player : Char) : Int :=
  (if readMem board 0 0 = some player then 10 else 0) +
  (if readMem board 7 0 = some player then 10 else 0) +
  (if readMem board 0 7 = some player then 10 else 0) +
  (if readMem board 7 7 = some player then 10 else 0)

/-- `heuristic` (main.cpp lines 303-345): mobility + piece count + corner
bonus, black minus white. -/
def heuristic (board : Board) : Option Int :=
  match getBlackLegalMoves board with
  | none => none
  | some bl =>
    match getWhiteLegalMoves board with
    | none => none
    | some wl =>
      some (((bl.length : Int) + getScore board 'b' + cornerBonus board 'b')
        - ((wl.length : Int) + getScore board 'w' + cornerBonus board 'w'))

/-! ### The game tree (main.cpp lines 348-395) -/

/-- `struct Node` (main.cpp lines 348-355).  `new Node()` value-initialises
the aggregate, so `val` starts at `0` and `children` at null (here `[]`);
`child_count` is stored separately from the child array, exactly as in the
struct (the array can be null while `child_count` is positive). -/
inductive Node where
  | mk : List Node → Nat → List (Int × Int) → Board → Int → Node

/-- `node->children`. -/
def Node.children : Node → List Node
  | .mk cs _ _ _ _ => cs

/-- `node->child_count`. -/
def Node.childCount : Node → Nat
  | .mk _ n _ _ _ => n

/-- `node->move_list`. -/
def Node.moveList : Node → List (Int × Int)
  | .mk _ _ ml _ _ => ml

/-- `node->state`. -/
def Node.state : Node → Board
  | .mk _ _ _ st _ => st

/-- `node->val`. -/
def Node.val : Node → Int
  | .mk _ _ _ _ v => v

/-- The child-construction loop of `CreateTree` (main.cpp lines 380-389),
with `f` building one child from its move. -/
def buildKids (f : (Int × Int) → Option Node) :
    List (Int × Int) → Option (List Node)
  | [] => some []
  | m :: ms =>
    match f m with
    | none => none
    | some n => (buildKids f ms).map (n :: ·)

/-- `CreateTree` (main.cpp lines 358-395).  Children are created exactly
when `depth > 0 && child_count > 0` (line 375), split here into top-level
cases on the depth and the move list. -/
def CreateTree : Board → Nat → Char → Option Node
  | board, 0, player =>
    match (if player = 'w' then getWhiteLegalMoves board else getBlackLegalMoves board) with
    | none => none
    | some ml => some (Node.mk [] ml.length ml board 0)
  | board, d + 1, player =>
    match (if player = 'w' then getWhiteLegalMoves board else getBlackLegalMoves board) with
    | none => none
    | some [] => some (Node.mk [] 0 [] board 0)
    | some (m :: ms) =>
      (buildKids (fun mv => (makeMove board mv.1 mv.2 player).bind
          fun tb => CreateTree tb d (if player = 'w' then 'b' else 'w')) (m :: ms)).map
        fun cs => Node.mk cs (m :: ms).length (m :: ms) board 0

/-! ### The two minimax variants (main.cpp lines 398-441 and 444-468)

Each search returns the backed-up value together with the tree as it stands
after the search's `position->val` writes.  `none` again marks a run with
undefined behaviour (a heuristic evaluation that reads outside the board, or
a `children[i]` dereference past the child array). -/

/-- The maximizing child loop of the alpha-beta `minimax` (main.cpp lines
408-424): `f` evaluates one child at the current window; the first `Nat` is
the number of children still to visit per `child_count`.  Returns
`(max_eval, alpha, children after the loop)`. -/
def abMaxGo (f : Node → Int → Int → Option (Int × Node)) :
    Nat → List Node → Int → Int → Int → Option (Int × Int × List Node)
  | 0, cs, alpha, _beta, maxEval => some (maxEval, alpha, cs)
  | _cc + 1, [], _, _, _ => none
  | cc + 1, c :: rest, alpha, beta, maxEval =>
    match f c alpha beta with
    | none => none
    | some (eval, c') =>
      if beta ≤ max alpha eval then
        some (max maxEval eval, max alpha eval, c' :: rest)
      else
        (abMaxGo f cc rest (max alpha eval) beta (max maxEval eval)).map
          fun r => (r.1, r.2.1, c' :: r.2.2)

/-- The minimizing child loop of the alpha-beta `minimax` (main.cpp lines
427-437).  Returns `(min_eval, beta, children after the loop)`. -/
def abMinGo (f : Node → Int → Int → Option (Int × Node)) :
    Nat → List Node → Int → Int → Int → Option (Int × Int × List Node)
  | 0, cs, _alpha, beta, minEval => some (minEval, beta, cs)
  | _cc + 1, [], _, _, _ => none
  | cc + 1, c :: rest, alpha, beta, minEval =>
    match f c alpha beta with
    | none => none
    | some (eval, c') =>
      if min beta eval ≤ alpha then
        some (min minEval eval, min beta eval, c' :: rest)
      else
        (abMinGo f cc rest alpha (min beta eval) (min minEval eval)).map
          fun r => (r.1, r.2.1, c' :: r.2.2)

/-- Alpha-beta `minimax` (main.cpp lines 398-441). -/
def minimaxAB : Node → Nat → Int → Int → Bool → Option (Int × Node)
  | pos, 0, _, _, _ => (heuristic pos.state).map fun h => (h, pos)
  | pos, d + 1, alpha, beta, maximizing =>
    match isGameOver pos.state with
    | none => none
    | some true => (heuristic pos.state).map fun h => (h, pos)
    | some false =>
      if maximizing then
        (abMaxGo (fun c a b' => minimaxAB c d a b' false)
            pos.childCount pos.children alpha beta (-9999999)).map
          fun r => (r.1, Node.mk r.2.2 pos.childCount pos.moveList pos.state r.1)
      else
        (abMinGo (fun c a b' => minimaxAB c d a b' true)
            pos.childCount pos.children alpha beta 9999999).map
          fun r => (r.1, Node.mk r.2.2 pos.childCount pos.moveList pos.state r.1)

/-- The maximizing child loop of the plain `minimax` (main.cpp lines 452-456). -/
def plainMaxGo (f : Node → Option (Int × Node)) :
    Nat → List Node → Int → Option (Int × List Node)
  | 0, cs, maxEval => some (maxEval, cs)
  | _cc + 1, [], _ => none
  | cc + 1, c :: rest, maxEval =>
    match f c with
    | none => none
    | some (eval, c') =>
      (plainMaxGo f cc rest (max maxEval eval)).map fun r => (r.1, c' :: r.2)

/-- The minimizing child loop of the plain `minimax` (main.cpp lines 460-464). -/
def plainMinGo (f : Node → Option (Int × Node)) :
    Nat → List Node → Int → Option (Int × List Node)
  | 0, cs, minEval => some (minEval, cs)
  | _cc + 1, [], _ => none
  | cc + 1, c :: rest, minEval =>
    match f c with
    | none => none
    | some (eval, c') =>
      (plainMinGo f cc rest (min minEval eval)).map fun r => (r.1, c' :: r.2)

/-- The non-pruning `minimax` (main.cpp lines 444-468). -/
def minimaxPlain : Node → Nat → Bool → Option (Int × Node)
  | pos, 0, _ => (heuristic pos.state).map fun h => (h, pos)
  | pos, d + 1, maximizing =>
    match isGameOver pos.state with
    | none => none
    | some true => (heuristic pos.state).map fun h => (h, pos)
    | some false =>
      if maximizing then
        (plainMaxGo (fun c => minimaxPlain c d false)
            pos.childCount pos.children (-9999999)).map
          fun r => (r.1, Node.mk r.2 pos.childCount pos.moveList pos.state r.1)
      else
        (plainMinGo (fun c => minimaxPlain c d true)
            pos.childCount pos.children 9999999).map
          fun r => (r.1, Node.mk r.2 pos.childCount pos.moveList pos.state r.1)

/-- The standard opening position (main.cpp lines 482-491). -/
def initialBoard : Board := List.flatten (List.map String.toList
  [ "--------"
  , "--------"
  , "--------"
  , "---wb---"
  , "---bw---"
  , "--------"
  , "--------"
  , "--------" ])

example : calculateLegalMoves initialBoard 'b' =
    some [(2, 3), (3, 2), (4, 5), (5, 4)] := by decide
example : heuristic initialBoard = some 0 := by decide
example : isGameOver initialBoard = some false := by decide

/-! ### `isLegalMove` (main.cpp lines 199-219) and claim C8 -/

/-- `isLegalMove` (main.cpp lines 199-219).  The thrown `std::range_error`
is modelled by `Except.error`; a normal return by `Except.ok`.  The board is
taken by value and never written, so the embedding returns no board. -/
def isLegalMove (board : Board) (moveList : List (Int × Int)) (row col : Int)
    (player : Char) : Option (Except String Bool) :=
  if row > 7 ∨ row < 0 ∨ col > 7 ∨ col < 0 then
    some (Except.error "isLegalMove()")
  else
    match readMem board row col with
    | none => none
    | some ch =>
      if ch ≠ '-' then some (Except.ok false)
      else if (row, col) ∈ moveList then some (Except.ok true)
      else some (Except.ok false)

/-- C8: `isLegalMove` raises an error iff `row` or `col` is outside `[0,7]`;
for in-range coordinates it returns normally (it never modifies the board —
the embedding is a pure function of it), with `false` exactly when the cell
is occupied or the move is missing from the supplied move list, and `true`
otherwise. -/
theorem isLegalMove_spec (board : Board) (moveList : List (Int × Int))
    (row col : Int) (player : Char) (hlen : board.length = 64) :
    ((∃ e, isLegalMove board moveList row col player = some (Except.error e)) ↔
      (row > 7 ∨ row < 0 ∨ col > 7 ∨ col < 0)) ∧
    (¬(row > 7 ∨ row < 0 ∨ col > 7 ∨ col < 0) →
      isLegalMove board moveList row col player =
        some (Except.ok (decide (readMem board row col = some '-' ∧
          (row, col) ∈ moveList)))) := by
  by_cases hr : row > 7 ∨ row < 0 ∨ col > 7 ∨ col < 0
  · refine ⟨⟨fun _ => hr, fun _ => ⟨"isLegalMove()", ?_⟩⟩, fun h => absurd hr h⟩
    simp [isLegalMove, hr]
  · have hidx : 0 ≤ 8 * row + col ∧ 8 * row + col < 64 := by omega
    have hlt : (8 * row + col).toNat < board.length := by omega
    obtain ⟨ch, hch⟩ : ∃ ch, board.get? (8 * row + col).toNat = some ch := by
      cases h : board.get? (8 * row + col).toNat with
      | none => exact absurd (List.get?_eq_none.mp h) (by omega)
      | some ch => exact ⟨ch, rfl⟩
    have hread : readMem board row col = some ch := by
      simp only [readMem, getMem, if_pos hidx]
      exact hch
    constructor
    · constructor
      · rintro ⟨e, he⟩
        simp only [isLegalMove, hr, if_false, hread] at he
        by_cases hd : ch = '-' <;> by_cases hm : (row, col) ∈ moveList <;>
          simp [hd, hm] at he
      · intro h; exact absurd h hr
    · intro _
      simp only [isLegalMove, hr, if_false, hread]
      by_cases hd : ch = '-' <;> by_cases hm : (row, col) ∈ moveList <;>
        simp [hd, hm, hread]

/-- Witness for C8: the opening position, probing the legal move (2,3). -/
theorem isLegalMove_spec_witness :
    ((∃ e, isLegalMove initialBoard [(2, 3)] 2 3 'b' = some (Except.error e)) ↔
      ((2 : Int) > 7 ∨ (2 : Int) < 0 ∨ (3 : Int) > 7 ∨ (3 : Int) < 0)) ∧
    (¬((2 : Int) > 7 ∨ (2 : Int) < 0 ∨ (3 : Int) > 7 ∨ (3 : Int) < 0) →
      isLegalMove initialBoard [(2, 3)] 2 3 'b' =
        some (Except.ok (decide (readMem initialBoard 2 3 = some '-' ∧
          ((2 : Int), (3 : Int)) ∈ [((2 : Int), (3 : Int))])))) :=
  isLegalMove_spec initialBoard [(2, 3)] 2 3 'b' (by decide)

/-! ### Claim C5: does the search record `val` on every visited node? -/

/-- Board with a single Black disc on the (7,7) corner: both players are out
of moves, `heuristic` is `11`, and no walk comes near the unchecked left
edge. -/
def boardC5 : Board := List.flatten (List.map String.toList
  [ "--------"
  , "--------"
  , "--------"
  , "--------"
  , "--------"
  , "--------"
  , "--------"
  , "-------b" ])

/-- C5 counterexample: on the tree built for `boardC5` (a terminal position)
the search returns the heuristic value 11, but the visited root node keeps
`val = 0` — a base-case node's returned heuristic value is *not* recorded. -/
theorem minimaxAB_base_val_stale :
    (CreateTree boardC5 3 'b').bind
        (fun t => (minimaxAB t 3 (-99999999) 99999999 true).map
          fun r => (r.1, r.2.val)) = some (11, 0) ∧ (11 : Int) ≠ 0 := by
  decide

/-- C5 amended: a visited node records the backed-up value in `val` only
when the search iterates over its children (`depth ≠ 0` and the board not
terminal); a base-case call returns the node completely unchanged, so its
returned heuristic value is never recorded. -/
theorem minimaxAB_val_written (pos : Node) (d : Nat) (alpha beta : Int)
    (maximizing : Bool) (v : Int) (t' : Node)
    (h : minimaxAB pos d alpha beta maximizing = some (v, t')) :
    ((d = 0 ∨ isGameOver pos.state = some true) → t' = pos) ∧
    (¬(d = 0 ∨ isGameOver pos.state = some true) → t'.val = v) := by
  cases d with
  | zero =>
    simp only [minimaxAB, Option.map_eq_some'] at h
    obtain ⟨hv, -, ht⟩ := h
    exact ⟨fun _ => (congrArg Prod.snd ht).symm,
      fun hc => absurd (Or.inl rfl) hc⟩
  | succ n =>
    rw [minimaxAB] at h
    cases hg : isGameOver pos.state with
    | none => rw [hg] at h; exact absurd h (by simp)
    | some b =>
      rw [hg] at h
      cases b with
      | true =>
        simp only [Option.map_eq_some'] at h
        obtain ⟨hv, -, ht⟩ := h
        exact ⟨fun _ => (congrArg Prod.snd ht).symm,
          fun hc => absurd (Or.inr rfl) hc⟩
      | false =>
        refine ⟨fun hc => ?_, fun _ => ?_⟩
        · rcases hc with hc | hc
          · exact absurd hc (Nat.succ_ne_zero n)
          · exact absurd hc (by decide)
        · cases maximizing with
          | true =>
            simp only [if_true, Option.map_eq_some'] at h
            obtain ⟨r, -, ht⟩ := h
            have h1 : t' = Node.mk r.2.2 pos.childCount pos.moveList pos.state r.1 :=
              (congrArg Prod.snd ht).symm
            have h2 : v = r.1 := (congrArg Prod.fst ht).symm
            rw [h1, h2]; rfl
          | false =>
            simp only [Bool.false_eq_true, if_false, Option.map_eq_some'] at h
            obtain ⟨r, -, ht⟩ := h
            have h1 : t' = Node.mk r.2.2 pos.childCount pos.moveList pos.state r.1 :=
              (congrArg Prod.snd ht).symm
            have h2 : v = r.1 := (congrArg Prod.fst ht).symm
            rw [h1, h2]; rfl

/-- A childless node on the opening position: not a base case at depth 1. -/
def nodeW5 : Node := Node.mk [] 0 [] initialBoard 0

/-- Witness for the amended C5 theorem: a non-base call writes `val`. -/
theorem minimaxAB_val_written_witness :
    ((1 = 0 ∨ isGameOver nodeW5.state = some true) →
      Node.mk [] 0 [] initialBoard (-9999999) = nodeW5) ∧
    (¬(1 = 0 ∨ isGameOver nodeW5.state = some true) →
      (Node.mk [] 0 [] initialBoard (-9999999)).val = -9999999) :=
  minimaxAB_val_written nodeW5 1 (-99999999) 99999999 true (-9999999)
    (Node.mk [] 0 [] initialBoard (-9999999)) (by rfl)

/-! ### Claim C7: shape of the tree built by `CreateTree` -/

/-- The shape claimed for trees built by `CreateTree`, at every node: the
node snapshots the board and the acting player's legal-move list, sets
`child_count` to the list's length, and has children exactly when the depth
is positive and the move list non-empty — one child per legal move in order,
whose board is the move applied to a copy of the node's board, built for the
opposing player at depth - 1. -/
def createdProperly : Nat → Char → Board → Node → Bool
  | 0, player, board, t =>
    match (if player = 'w' then getWhiteLegalMoves board else getBlackLegalMoves board) with
    | none => false
    | some ml =>
      decide (t.state = board) && decide (t.moveList = ml) &&
      decide (t.childCount = ml.length) && t.children.isEmpty
  | dd + 1, player, board, t =>
    match (if player = 'w' then getWhiteLegalMoves board else getBlackLegalMoves board) with
    | none => false
    | some [] =>
      decide (t.state = board) && decide (t.moveList = ([] : List (Int × Int))) &&
      decide (t.childCount = 0) && t.children.isEmpty
    | some (m :: ms) =>
      decide (t.state = board) && decide (t.moveList = m :: ms) &&
      decide (t.childCount = (m :: ms).length) &&
      decide (t.children.length = (m :: ms).length) &&
      ((t.children.zip (m :: ms)).all fun p =>
        match makeMove board p.2.1 p.2.2 player with
        | none => false
        | some b2 =>
          decide (p.1.state = b2) &&
          createdProperly dd (if player = 'w' then 'b' else 'w') b2 p.1)

/-- Unfolding `buildKids`: a successful build pairs children with moves. -/
theorem buildKids_eq_some {f : (Int × Int) → Option Node} :
    ∀ {ml : List (Int × Int)} {cs : List Node}, buildKids f ml = some cs →
      cs.length = ml.length ∧ ∀ p ∈ cs.zip ml, f p.2 = some p.1 := by
  intro ml
  induction ml with
  | nil =>
    intro cs h
    simp only [buildKids, Option.some.injEq] at h
    subst h; simp
  | cons m ms ih =>
    intro cs h
    rw [buildKids] at h
    cases hf : f m with
    | none => rw [hf] at h; exact absurd h (by simp)
    | some n =>
      rw [hf] at h
      simp only [Option.map_eq_some'] at h
      obtain ⟨cs2, hcs2, rfl⟩ := h
      obtain ⟨hlen, hall⟩ := ih hcs2
      refine ⟨by simp [hlen], ?_⟩
      intro p hp
      rw [List.zip_cons_cons] at hp
      rcases List.mem_cons.mp hp with h1 | h1
      · subst h1; exact hf
      · exact hall p h1

/-- Extract the board snapshot from `createdProperly`. -/
theorem createdProperly_state {d : Nat} {player : Char} {board : Board}
    {t : Node} (h : createdProperly d player board t = true) :
    t.state = board := by
  cases d with
  | zero =>
    rw [createdProperly] at h
    cases hml : (if player = 'w' then getWhiteLegalMoves board else getBlackLegalMoves board) with
    | none => rw [hml] at h; exact absurd h (by simp)
    | some ml =>
      rw [hml] at h
      simp only [Bool.and_eq_true, decide_eq_true_eq] at h
      exact h.1.1.1
  | succ dd =>
    rw [createdProperly] at h
    cases hml : (if player = 'w' then getWhiteLegalMoves board else getBlackLegalMoves board) with
    | none => rw [hml] at h; exact absurd h (by simp)
    | some ml =>
      rw [hml] at h
      cases ml with
      | nil =>
        simp only [Bool.and_eq_true, decide_eq_true_eq] at h
        exact h.1.1.1
      | cons m ms =>
        simp only [Bool.and_eq_true, decide_eq_true_eq] at h
        exact h.1.1.1.1

/-- C7: every tree built by `CreateTree` satisfies the node-shape invariant
`createdProperly` — board snapshot, cached legal-move list, `child_count`,
leaf exactly when depth is 0 or the move list is empty, and otherwise one
child per move in row-major order built from the moved board for the
opposing player at depth - 1, recursively. -/
theorem CreateTree_createdProperly :
    ∀ (d : Nat) (board : Board) (player : Char) (t : Node),
      CreateTree board d player = some t →
      createdProperly d player board t = true := by
  intro d
  induction d with
  | zero =>
    intro board player t h
    rw [CreateTree] at h
    cases hml : (if player = 'w' then getWhiteLegalMoves board else getBlackLegalMoves board) with
    | none => rw [hml] at h; exact absurd h (by simp)
    | some ml =>
      rw [hml] at h
      have ht : t = Node.mk [] ml.length ml board 0 := by
        cases ml <;> simpa using h.symm
      subst ht
      rw [createdProperly, hml]
      simp [Node.state, Node.moveList, Node.childCount, Node.children]
  | succ dd ih =>
    intro board player t h
    rw [CreateTree] at h
    cases hml : (if player = 'w' then getWhiteLegalMoves board else getBlackLegalMoves board) with
    | none => rw [hml] at h; exact absurd h (by simp)
    | some ml =>
      rw [hml] at h
      cases ml with
      | nil =>
        have ht : t = Node.mk [] 0 [] board 0 := by simpa using h.symm
        subst ht
        rw [createdProperly, hml]
        simp [Node.state, Node.moveList, Node.childCount, Node.children]
      | cons m ms =>
        simp only [Option.map_eq_some'] at h
        obtain ⟨cs, hbk, rfl⟩ := h
        obtain ⟨hlen, hall⟩ := buildKids_eq_some hbk
        rw [createdProperly, hml]
        simp only [Bool.and_eq_true, decide_eq_true_eq, List.all_eq_true]
        refine ⟨⟨⟨⟨rfl, rfl⟩, rfl⟩, hlen⟩, ?_⟩
        intro p hp
        have hf := hall p hp
        cases hmm : makeMove board p.2.1 p.2.2 player with
        | none => rw [hmm] at hf; exact absurd hf (by simp)
        | some b2 =>
          rw [hmm] at hf
          simp only [Option.bind_eq_some] at hf
          have hct : CreateTree b2 dd (if player = 'w' then 'b' else 'w') = some p.1 := by
            simpa using hf
          have hcp := ih b2 (if player = 'w' then 'b' else 'w') p.1 hct
          simp only [Bool.and_eq_true, decide_eq_true_eq]
          exact ⟨createdProperly_state hcp, hcp⟩

/-- Witness for C7: the opening position at depth 0 (a leaf caching the four
black moves). -/
theorem CreateTree_createdProperly_witness :
    createdProperly 0 'b' initialBoard
      (Node.mk [] 4 [(2, 3), (3, 2), (4, 5), (5, 4)] initialBoard 0) = true :=
  CreateTree_createdProperly 0 initialBoard 'b'
    (Node.mk [] 4 [(2, 3), (3, 2), (4, 5), (5, 4)] initialBoard 0) (by rfl)

/-! ### Claim C9: heuristic antisymmetry under colour swap -/

/-- Swap the two players' colours on one cell. -/
def swapC (ch : Char) : Char :=
  if ch = 'b' then 'w' else if ch = 'w' then 'b' else ch

/-- Swap every Black cell to White and vice versa. -/
def swapBoard (board : Board) : Board := board.map swapC

theorem swapC_swapC (ch : Char) : swapC (swapC ch) = ch := by
  unfold swapC
  by_cases h1 : ch = 'b'
  · simp [h1]
  · by_cases h2 : ch = 'w' <;> simp [h1, h2]

theorem swapC_inj {a b : Char} : swapC a = swapC b ↔ a = b :=
  ⟨fun h => by
    have h2 := congrArg swapC h
    rwa [swapC_swapC, swapC_swapC] at h2,
   fun h => h ▸ rfl⟩

theorem getMem_swapBoard (b : Board) (i : Int) :
    getMem (swapBoard b) i = (getMem b i).map swapC := by
  unfold getMem swapBoard
  split
  · exact List.get?_map swapC b i.toNat
  · rfl

theorem readMem_swapBoard (b : Board) (r c : Int) :
    readMem (swapBoard b) r c = (readMem b r c).map swapC :=
  getMem_swapBoard b (8 * r + c)

theorem readMem_swapBoard_eq_some (b : Board) (r c : Int) (p : Char) :
    readMem (swapBoard b) r c = some p ↔ readMem b r c = some (swapC p) := by
  rw [readMem_swapBoard]
  cases readMem b r c with
  | none => simp
  | some ch =>
    simp only [Option.map_some', Option.some.injEq]
    constructor
    · rintro rfl; rw [swapC_swapC]
    · intro h; rw [h, swapC_swapC]

theorem flipSearch_swapBoard (b : Board) (other : Char) (dr dc : Int) :
    ∀ (fuel : Nat) (r c : Int) (ch : Char),
      flipSearch (swapBoard b) (swapC other) dr dc fuel r c (swapC ch) =
        (flipSearch b other dr dc fuel r c ch).map swapC := by
  intro fuel
  induction fuel with
  | zero => intro r c ch; rfl
  | succ n ih =>
    intro r c ch
    rw [flipSearch, flipSearch]
    by_cases hco : ch = other
    · rw [if_pos (swapC_inj.mpr hco), if_pos hco]
      by_cases hob : offBoardBuggy (r + dr) (c + dc) = true
      · rw [if_pos hob, if_pos hob]; rfl
      · rw [if_neg hob, if_neg hob, readMem_swapBoard]
        cases hread : readMem b (r + dr) (c + dc) with
        | none => rfl
        | some ch2 => exact ih (r + dr) (c + dc) ch2
    · rw [if_neg (fun h => hco (swapC_inj.mp h)), if_neg hco]; rfl

theorem isFlippableGo_swapBoard (b : Board) (row col : Int) (player other : Char) :
    ∀ ds, isFlippableGo (swapBoard b) row col (swapC player) (swapC other) ds =
      isFlippableGo b row col player other ds := by
  intro ds
  induction ds with
  | nil => rfl
  | cons d rest ih =>
    obtain ⟨dr, dc⟩ := d
    rw [isFlippableGo, isFlippableGo]
    by_cases hob : offBoard (row + dr) (col + dc) = true
    · rw [if_pos hob, if_pos hob]; exact ih
    · rw [if_neg hob, if_neg hob, readMem_swapBoard]
      cases hread : readMem b (row + dr) (col + dc) with
      | none => rfl
      | some ch =>
        show (if swapC ch = swapC other then _ else _) = (if ch = other then _ else _)
        by_cases hco : ch = other
        · rw [if_pos (swapC_inj.mpr hco), if_pos hco,
            flipSearch_swapBoard b other dr dc 100 (row + dr) (col + dc) ch]
          cases hlast : flipSearch b other dr dc 100 (row + dr) (col + dc) ch with
          | none => rfl
          | some last =>
            show (if swapC last = swapC player then _ else _) = (if last = player then _ else _)
            by_cases hlp : last = player
            · rw [if_pos (swapC_inj.mpr hlp), if_pos hlp]
            · rw [if_neg (fun h => hlp (swapC_inj.mp h)), if_neg hlp]; exact ih
        · rw [if_neg (fun h => hco (swapC_inj.mp h)), if_neg hco]; exact ih

theorem isFlippable_swapBoard (b : Board) (r c : Int) (p : Char)
    (hp : p = 'b' ∨ p = 'w') :
    isFlippable (swapBoard b) r c p = isFlippable b r c (swapC p) := by
  rcases hp with rfl | rfl
  · have h := isFlippableGo_swapBoard b r c 'w' 'b' surroundingPosDeltas
    have e1 : swapC 'w' = 'b' := by decide
    have e2 : swapC 'b' = 'w' := by decide
    rw [e1, e2] at h
    unfold isFlippable otherPlayer
    rw [e2]
    simpa using h
  · have h := isFlippableGo_swapBoard b r c 'b' 'w' surroundingPosDeltas
    have e1 : swapC 'w' = 'b' := by decide
    have e2 : swapC 'b' = 'w' := by decide
    rw [e1, e2] at h
    unfold isFlippable otherPlayer
    rw [e1]
    simpa using h

theorem calcLegalGo_swapBoard (b : Board) (p : Char) (hp : p = 'b' ∨ p = 'w') :
    ∀ ds, calcLegalGo (swapBoard b) p ds = calcLegalGo b (swapC p) ds := by
  intro ds
  induction ds with
  | nil => rfl
  | cons m rest ih =>
    obtain ⟨i, j⟩ := m
    rw [calcLegalGo, calcLegalGo, readMem_swapBoard]
    cases hread : readMem b i j with
    | none => rfl
    | some ch =>
      show (if swapC ch = '-' then _ else _) = (if ch = '-' then _ else _)
      by_cases hdash : ch = '-'
      · have : swapC ch = '-' := by rw [hdash]; rfl
        rw [if_pos this, if_pos hdash, isFlippable_swapBoard b i j p hp]
        cases isFlippable b i j (swapC p) with
        | none => rfl
        | some fl => cases fl <;> simp [ih]
      · have : ¬swapC ch = '-' := fun h => hdash (by
          have := congrArg swapC h
          rwa [swapC_swapC] at this)
        rw [if_neg this, if_neg hdash]; exact ih

theorem calculateLegalMoves_swapBoard (b : Board) (p : Char)
    (hp : p = 'b' ∨ p = 'w') :
    calculateLegalMoves (swapBoard b) p = calculateLegalMoves b (swapC p) :=
  calcLegalGo_swapBoard b p hp coordList

theorem getScore_swapBoard (b : Board) (p : Char) :
    getScore (swapBoard b) p = getScore b (swapC p) := by
  unfold getScore
  have : ∀ (l : List (Int × Int)) (acc : Int),
      l.foldl (fun t m => if readMem (swapBoard b) m.1 m.2 = some p then t + 1 else t) acc =
      l.foldl (fun t m => if readMem b m.1 m.2 = some (swapC p) then t + 1 else t) acc := by
    intro l
    induction l with
    | nil => intro acc; rfl
    | cons m rest ih =>
      intro acc
      simp only [List.foldl_cons]
      rw [show (if readMem (swapBoard b) m.1 m.2 = some p then acc + 1 else acc) =
          (if readMem b m.1 m.2 = some (swapC p) then acc + 1 else acc) by
        by_cases h : readMem b m.1 m.2 = some (swapC p)
        · rw [if_pos h, if_pos ((readMem_swapBoard_eq_some b m.1 m.2 p).mpr h)]
        · rw [if_neg h, if_neg (fun hh => h ((readMem_swapBoard_eq_some b m.1 m.2 p).mp hh))]]
      exact ih _
  exact this coordList 0

theorem cornerBonus_swapBoard (b : Board) (p : Char) :
    cornerBonus (swapBoard b) p = cornerBonus b (swapC p) := by
  unfold cornerBonus
  have h : ∀ r c : Int,
      (if readMem (swapBoard b) r c = some p then (10 : Int) else 0) =
      (if readMem b r c = some (swapC p) then (10 : Int) else 0) := by
    intro r c
    by_cases hh : readMem b r c = some (swapC p)
    · rw [if_pos hh, if_pos ((readMem_swapBoard_eq_some b r c p).mpr hh)]
    · rw [if_neg hh, if_neg (fun hx => hh ((readMem_swapBoard_eq_some b r c p).mp hx))]
  rw [h 0 0, h 7 0, h 0 7, h 7 7]

/-- C9: swapping every Black cell to White and vice versa negates the
heuristic: `evaluate(colorSwap(B)) = -evaluate(B)` wherever the heuristic is
defined, and undefined runs correspond exactly. -/
theorem heuristic_swapBoard (b : Board) :
    heuristic (swapBoard b) = (heuristic b).map (fun v => -v) := by
  unfold heuristic getBlackLegalMoves getWhiteLegalMoves
  rw [calculateLegalMoves_swapBoard b 'b' (Or.inl rfl),
    calculateLegalMoves_swapBoard b 'w' (Or.inr rfl),
    show swapC 'b' = 'w' from by decide, show swapC 'w' = 'b' from by decide,
    getScore_swapBoard b 'b', getScore_swapBoard b 'w',
    cornerBonus_swapBoard b 'b', cornerBonus_swapBoard b 'w',
    show swapC 'b' = 'w' from by decide, show swapC 'w' = 'b' from by decide]
  cases calculateLegalMoves b 'b' with
  | none =>
    cases calculateLegalMoves b 'w' with
    | none => rfl
    | some wl => rfl
  | some bl =>
    cases calculateLegalMoves b 'w' with
    | none => rfl
    | some wl =>
      simp only [Option.map_some', Option.some.injEq]
      ring

/-! ### Claim C6: the engine's move selection (main.cpp lines 584-623) -/

/-- `MINIMAX_DEPTH` (main.cpp line 26). -/
def MINIMAX_DEPTH : Nat := 5

/-- The coordinates compared by the `same_config` loops (main.cpp lines
607-612): `j` and `k` run over `[0,6]` only — 49 of the 64 cells. -/
def coordList7 : List (Int × Int) :=
  (List.range 7).flatMap fun j => (List.range 7).map fun k => ((j : Int), (k : Int))

/-- The `same_config` computation (main.cpp lines 606-612). -/
def sameConfig (child board : Board) : Bool :=
  coordList7.all fun p => decide (readMem child p.1 p.2 = readMem board p.1 p.2)

/-- The root-child scan (main.cpp lines 603-623): act on the first child
whose recorded `val` equals the optimal value; board untouched when no
child matches; `none` on a `children[i]` read past the array or a
`move_list[0]` read of an empty list. -/
def aiChoose (player : Char) (board : Board) (moveList : List (Int × Int))
    (optimal : Int) : Nat → List Node → Option Board
  | 0, _ => some board
  | _ + 1, [] => none
  | cc + 1, c :: rest =>
    if c.val = optimal then
      if sameConfig c.state board then
        match moveList with
        | [] => none
        | m :: _ => makeMove board m.1 m.2 player
      else some c.state
    else aiChoose player board moveList optimal cc rest

/-- The engine's whole turn (main.cpp lines 522 and 584-623): move list,
tree, alpha-beta search at the root window, then the child scan. -/
def aiTurn (board : Board) (player : Char) : Option Board :=
  match calculateLegalMoves board player with
  | none => none
  | some moveList =>
    match CreateTree board MINIMAX_DEPTH player with
    | none => none
    | some gametree =>
      match minimaxAB gametree MINIMAX_DEPTH (-99999999) 99999999 (player = 'b') with
      | none => none
      | some (optimal, annotated) =>
        aiChoose player board moveList optimal annotated.childCount annotated.children

/-- Board for C6; Black to move with exactly the moves (0,3) and (7,4). -/
def boardC6 : Board := List.flatten (List.map String.toList
  [ "----wbbb"
  , "--------"
  , "--------"
  , "--------"
  , "--------"
  , "--------"
  , "--------"
  , "-----wb-" ])

/-- `boardC6` after Black plays (0,3). -/
def boardC6m0 : Board := List.flatten (List.map String.toList
  [ "---bbbbb"
  , "--------"
  , "--------"
  , "--------"
  , "--------"
  , "--------"
  , "--------"
  , "-----wb-" ])

/-- `boardC6` after Black plays (7,4) — it differs from `boardC6` only in
row 7, which the 49-cell comparison never looks at. -/
def boardC6m1 : Board := List.flatten (List.map String.toList
  [ "----wbbb"
  , "--------"
  , "--------"
  , "--------"
  , "--------"
  , "--------"
  , "--------"
  , "----bbb-" ])

/-- C6: the engine's selection does *not* compare all 64 cells.  On
`boardC6` the search gives the root value 9999999; the first child with
that `val` is the second one, whose board `boardC6m1` differs from the
current board only in row 7.  The claim then demands the board become
`boardC6m1`; the code's 7×7 `same_config` comparison instead reports the
boards identical and falls back to playing the first legal move (0,3),
leaving the board at `boardC6m0`. -/
theorem aiTurn_compares_49_cells :
    aiTurn boardC6 'b' = some boardC6m0 ∧
    makeMove boardC6 0 3 'b' = some boardC6m0 ∧
    ((CreateTree boardC6 5 'b').bind fun t =>
        (minimaxAB t 5 (-99999999) 99999999 true).map fun r =>
          (r.1, r.2.children.map fun c => (c.val, c.state))) =
      some (9999999, [(2, boardC6m0), (9999999, boardC6m1)]) ∧
    sameConfig boardC6m1 boardC6 = true ∧
    boardC6m1 ≠ boardC6 ∧ boardC6m0 ≠ boardC6m1 := by decide

/-! ### Claim C10: `val` is zero-initialised and written only on
child-iterating nodes -/

/-- All `val` fields of a tree of height at most `d` are zero. -/
def valsZero : Nat → Node → Bool
  | 0, t => decide (t.val = 0)
  | d + 1, t => decide (t.val = 0) && t.children.all fun c => valsZero d c

/-- The maximizing loop preserves the child count, and each output child is
either the `f`-result of the corresponding input child (evaluated at some
window) or that input child itself, unchanged — the latter covering every
child beyond the loop's stopping point (cut or list end). -/
theorem abMaxGo_pointwise (f : Node → Int → Int → Option (Int × Node)) :
    ∀ (cc : Nat) (cs : List Node) (alpha beta maxEval v a : Int)
      (cs' : List Node),
      abMaxGo f cc cs alpha beta maxEval = some (v, a, cs') →
      cs'.length = cs.length ∧
      ∀ (i : Nat) (hi : i < cs.length) (hi' : i < cs'.length),
        (∃ a' b' e, f (cs.get ⟨i, hi⟩) a' b' = some (e, cs'.get ⟨i, hi'⟩)) ∨
        cs'.get ⟨i, hi'⟩ = cs.get ⟨i, hi⟩ := by
  intro cc
  induction cc with
  | zero =>
    intro cs alpha beta maxEval v a cs' h
    rw [abMaxGo] at h
    obtain ⟨rfl, rfl, rfl⟩ : maxEval = v ∧ alpha = a ∧ cs = cs' := by simpa using h
    exact ⟨rfl, fun i hi hi' => Or.inr rfl⟩
  | succ n ih =>
    intro cs alpha beta maxEval v a cs' h
    cases cs with
    | nil => exact absurd h (by simp [abMaxGo])
    | cons c rest =>
      rw [abMaxGo] at h
      cases hf : f c alpha beta with
      | none => rw [hf] at h; exact absurd h (by simp)
      | some ec =>
        obtain ⟨e1, c1⟩ := ec
        rw [hf] at h
        simp only [] at h
        by_cases hcut : beta ≤ max alpha e1
        · rw [if_pos hcut] at h
          obtain ⟨rfl, rfl, rfl⟩ :
              max maxEval e1 = v ∧ max alpha e1 = a ∧ c1 :: rest = cs' := by
            simpa using h
          refine ⟨rfl, fun i hi hi' => ?_⟩
          cases i with
          | zero => exact Or.inl ⟨alpha, beta, e1, hf⟩
          | succ j => exact Or.inr rfl
        · rw [if_neg hcut] at h
          simp only [Option.map_eq_some'] at h
          obtain ⟨r, hr, hr2⟩ := h
          obtain ⟨hlen, hpt⟩ := ih rest (max alpha e1) beta (max maxEval e1)
            r.1 r.2.1 r.2.2 (by simpa using hr)
          have hcs : cs' = c1 :: r.2.2 := by
            have h3 := congrArg (fun x => x.2.2) hr2
            simpa using h3.symm
          subst hcs
          refine ⟨by simpa using hlen, fun i hi hi' => ?_⟩
          cases i with
          | zero => exact Or.inl ⟨alpha, beta, e1, hf⟩
          | succ j =>
            exact hpt j (Nat.lt_of_succ_lt_succ hi) (Nat.lt_of_succ_lt_succ hi')

/-- The minimizing loop preserves the child count, and each output child is
either the `f`-result of the corresponding input child or that input child
itself, unchanged. -/
theorem abMinGo_pointwise (f : Node → Int → Int → Option (Int × Node)) :
    ∀ (cc : Nat) (cs : List Node) (alpha beta minEval v a : Int)
      (cs' : List Node),
      abMinGo f cc cs alpha beta minEval = some (v, a, cs') →
      cs'.length = cs.length ∧
      ∀ (i : Nat) (hi : i < cs.length) (hi' : i < cs'.length),
        (∃ a' b' e, f (cs.get ⟨i, hi⟩) a' b' = some (e, cs'.get ⟨i, hi'⟩)) ∨
        cs'.get ⟨i, hi'⟩ = cs.get ⟨i, hi⟩ := by
  intro cc
  induction cc with
  | zero =>
    intro cs alpha beta minEval v a cs' h
    rw [abMinGo] at h
    obtain ⟨rfl, rfl, rfl⟩ : minEval = v ∧ beta = a ∧ cs = cs' := by simpa using h
    exact ⟨rfl, fun i hi hi' => Or.inr rfl⟩
  | succ n ih =>
    intro cs alpha beta minEval v a cs' h
    cases cs with
    | nil => exact absurd h (by simp [abMinGo])
    | cons c rest =>
      rw [abMinGo] at h
      cases hf : f c alpha beta with
      | none => rw [hf] at h; exact absurd h (by simp)
      | some ec =>
        obtain ⟨e1, c1⟩ := ec
        rw [hf] at h
        simp only [] at h
        by_cases hcut : min beta e1 ≤ alpha
        · rw [if_pos hcut] at h
          obtain ⟨rfl, rfl, rfl⟩ :
              min minEval e1 = v ∧ min beta e1 = a ∧ c1 :: rest = cs' := by
            simpa using h
          refine ⟨rfl, fun i hi hi' => ?_⟩
          cases i with
          | zero => exact Or.inl ⟨alpha, beta, e1, hf⟩
          | succ j => exact Or.inr rfl
        · rw [if_neg hcut] at h
          simp only [Option.map_eq_some'] at h
          obtain ⟨r, hr, hr2⟩ := h
          obtain ⟨hlen, hpt⟩ := ih rest alpha (min beta e1) (min minEval e1)
            r.1 r.2.1 r.2.2 (by simpa using hr)
          have hcs : cs' = c1 :: r.2.2 := by
            have h3 := congrArg (fun x => x.2.2) hr2
            simpa using h3.symm
          subst hcs
          refine ⟨by simpa using hlen, fun i hi hi' => ?_⟩
          cases i with
          | zero => exact Or.inl ⟨alpha, beta, e1, hf⟩
          | succ j =>
            exact hpt j (Nat.lt_of_succ_lt_succ hi) (Nat.lt_of_succ_lt_succ hi')

/-- Every child produced by `buildKids` comes from `f` on some move. -/
theorem buildKids_mem {f : (Int × Int) → Option Node} :
    ∀ {ml : List (Int × Int)} {cs : List Node}, buildKids f ml = some cs →
      ∀ c ∈ cs, ∃ mv, f mv = some c := by
  intro ml
  induction ml with
  | nil =>
    intro cs h c hc
    simp only [buildKids, Option.some.injEq] at h
    subst h
    simp at hc
  | cons m ms ih =>
    intro cs h c hc
    rw [buildKids] at h
    cases hf : f m with
    | none => rw [hf] at h; exact absurd h (by simp)
    | some n =>
      rw [hf] at h
      simp only [Option.map_eq_some'] at h
      obtain ⟨cs2, hcs2, rfl⟩ := h
      rcases List.mem_cons.mp hc with rfl | hc2
      · exact ⟨m, hf⟩
      · exact ih hcs2 c hc2

/-- Helper for C10: trees built by `CreateTree` have all `val` fields 0. -/
theorem CreateTree_valsZero :
    ∀ (d : Nat) (board : Board) (player : Char) (t : Node),
      CreateTree board d player = some t → valsZero d t = true := by
  intro d
  induction d with
  | zero =>
    intro board player t h
    rw [CreateTree] at h
    cases hml : (if player = 'w' then getWhiteLegalMoves board else getBlackLegalMoves board) with
    | none => rw [hml] at h; exact absurd h (by simp)
    | some ml =>
      rw [hml] at h
      simp only [Option.some.injEq] at h
      rw [← h]
      rfl
  | succ dd ih =>
    intro board player t h
    rw [CreateTree] at h
    cases hml : (if player = 'w' then getWhiteLegalMoves board else getBlackLegalMoves board) with
    | none => rw [hml] at h; exact absurd h (by simp)
    | some ml =>
      rw [hml] at h
      cases ml with
      | nil =>
        simp only [Option.some.injEq] at h
        rw [← h]
        rfl
      | cons m ms =>
        simp only [Option.map_eq_some'] at h
        obtain ⟨cs, hbk, rfl⟩ := h
        rw [valsZero]
        simp only [Bool.and_eq_true, decide_eq_true_eq, List.all_eq_true]
        refine ⟨rfl, ?_⟩
        intro c hc
        obtain ⟨mv, hmv⟩ := buildKids_mem hbk c hc
        cases hmm : makeMove board mv.1 mv.2 player with
        | none => rw [hmm] at hmv; exact absurd hmv (by simp)
        | some b2 =>
          rw [hmm] at hmv
          have hct : CreateTree b2 dd (if player = 'w' then 'b' else 'w') = some c := by
            simpa using hmv
          exact ih b2 (if player = 'w' then 'b' else 'w') c hct

/-- Board for C10: Black to move with exactly the moves (7,6) and (7,7);
either move ends the game at once.  White's inert block is worth 14, so the
better move (7,7, taking the corner) evaluates to 0 and the worse (7,6)
to -10. -/
def boardC10 : Board := List.flatten (List.map String.toList
  [ "-----www"
  , "-------w"
  , "--------"
  , "--------"
  , "--------"
  , "-----bb-"
  , "------w-"
  , "--------" ])

/-- `boardC10` after Black plays the inferior move (7,6). -/
def boardC10m0 : Board := List.flatten (List.map String.toList
  [ "-----www"
  , "-------w"
  , "--------"
  , "--------"
  , "--------"
  , "-----bb-"
  , "------b-"
  , "------b-" ])

/-- C10: every node of a `CreateTree` tree starts with `val = 0` (the
value-initialised aggregate); `minimax` writes `val` only on nodes where it
iterates over children.  A base-case call (depth 0 or terminal board)
returns its node untouched; in the iterating case the child list keeps its
length and each returned child is either the recursive search's result on
the corresponding input child (at some window) or that input child itself,
unchanged — the latter covering every child past an alpha-beta cut.  Hence
on a tree whose children all carry `val = 0`, every returned child that is
not a genuine recursive search result still carries `val = 0`.  Concretely,
on `boardC10` the depth-5 search returns optimal value 0 while both root
children keep `val = 0` (both are terminal); the scan for `val == 0`
matches the first child, whose own evaluation is -10, and the engine plays
the inferior (7,6) instead of the optimal (7,7) whose evaluation is the
root value 0. -/
theorem valsZero_written_only_when_iterating :
    (∀ (d : Nat) (board : Board) (player : Char) (t : Node),
        CreateTree board d player = some t → valsZero d t = true) ∧
    (∀ (t : Node) (d : Nat) (alpha beta : Int) (m : Bool) (v : Int) (t' : Node),
        minimaxAB t d alpha beta m = some (v, t') →
        ((d = 0 ∨ isGameOver t.state = some true) → t' = t) ∧
        t'.children.length = t.children.length ∧
        (∀ (i : Nat) (hi : i < t.children.length)
            (hi' : i < t'.children.length),
          (∃ a' b' e, minimaxAB (t.children.get ⟨i, hi⟩) (d - 1) a' b' (!m) =
              some (e, t'.children.get ⟨i, hi'⟩)) ∨
          t'.children.get ⟨i, hi'⟩ = t.children.get ⟨i, hi⟩) ∧
        ((∀ c0 ∈ t.children, c0.val = 0) →
          ∀ c ∈ t'.children,
            c.val = 0 ∨ ∃ c0 ∈ t.children, ∃ a' b' e,
              minimaxAB c0 (d - 1) a' b' (!m) = some (e, c))) ∧
    (aiTurn boardC10 'b' = some boardC10m0 ∧
      makeMove boardC10 7 6 'b' = some boardC10m0 ∧
      ((CreateTree boardC10 5 'b').bind fun t =>
          (minimaxAB t 5 (-99999999) 99999999 true).map fun r =>
            (r.1, r.2.children.map Node.val)) = some (0, [0, 0]) ∧
      (makeMove boardC10 7 6 'b').bind heuristic = some (-10) ∧
      (makeMove boardC10 7 7 'b').bind heuristic = some 0) := by
  refine ⟨CreateTree_valsZero, ?_, by decide, by decide, by decide, by decide, by decide⟩
  intro t d alpha beta m v t' h
  have key : ((d = 0 ∨ isGameOver t.state = some true) → t' = t) ∧
      t'.children.length = t.children.length ∧
      (∀ (i : Nat) (hi : i < t.children.length)
          (hi' : i < t'.children.length),
        (∃ a' b' e, minimaxAB (t.children.get ⟨i, hi⟩) (d - 1) a' b' (!m) =
            some (e, t'.children.get ⟨i, hi'⟩)) ∨
        t'.children.get ⟨i, hi'⟩ = t.children.get ⟨i, hi⟩) := by
    cases d with
    | zero =>
      simp only [minimaxAB, Option.map_eq_some'] at h
      obtain ⟨hv, -, ht⟩ := h
      have ht' : t' = t := (congrArg Prod.snd ht).symm
      subst ht'
      exact ⟨fun _ => rfl, rfl, fun i hi hi' => Or.inr rfl⟩
    | succ n =>
      rw [minimaxAB] at h
      cases hg : isGameOver t.state with
      | none => rw [hg] at h; exact absurd h (by simp)
      | some gb =>
        rw [hg] at h
        cases gb with
        | true =>
          simp only [Option.map_eq_some'] at h
          obtain ⟨hv, -, ht⟩ := h
          have ht' : t' = t := (congrArg Prod.snd ht).symm
          subst ht'
          exact ⟨fun _ => rfl, rfl, fun i hi hi' => Or.inr rfl⟩
        | false =>
          refine ⟨fun hc => ?_, ?_⟩
          · rcases hc with hc | hc
            · exact absurd hc (Nat.succ_ne_zero n)
            · exact absurd hc (by decide)
          · cases m with
            | true =>
              simp only [if_true, Option.map_eq_some'] at h
              obtain ⟨r, hr, ht⟩ := h
              have ht' : t' = Node.mk r.2.2 t.childCount t.moveList t.state r.1 :=
                (congrArg Prod.snd ht).symm
              subst ht'
              obtain ⟨hlen, hpt⟩ := abMaxGo_pointwise _ t.childCount t.children
                alpha beta (-9999999) r.1 r.2.1 r.2.2 (by simpa using hr)
              exact ⟨hlen, fun i hi hi' => hpt i hi hi'⟩
            | false =>
              simp only [Bool.false_eq_true, if_false, Option.map_eq_some'] at h
              obtain ⟨r, hr, ht⟩ := h
              have ht' : t' = Node.mk r.2.2 t.childCount t.moveList t.state r.1 :=
                (congrArg Prod.snd ht).symm
              subst ht'
              obtain ⟨hlen, hpt⟩ := abMinGo_pointwise _ t.childCount t.children
                alpha beta 9999999 r.1 r.2.1 r.2.2 (by simpa using hr)
              exact ⟨hlen, fun i hi hi' => hpt i hi hi'⟩
  refine ⟨key.1, key.2.1, key.2.2, ?_⟩
  intro hz c hc
  obtain ⟨⟨i, hi'⟩, hget⟩ := List.mem_iff_get.mp hc
  have hi : i < t.children.length := key.2.1 ▸ hi'
  rcases key.2.2 i hi hi' with ⟨a', b', e, he⟩ | heq
  · refine Or.inr ⟨t.children.get ⟨i, hi⟩, List.get_mem _ _ _, a', b', e, ?_⟩
    rw [hget] at he
    exact he
  · refine Or.inl ?_
    rw [← hget, heq]
    exact hz _ (List.get_mem _ _ _)

/-- A depth-0 leaf on the opening position, for the C10 witness. -/
def nodeW10 : Node := Node.mk [] 4 [(2, 3), (3, 2), (4, 5), (5, 4)] initialBoard 0

/-- A one-child node over the opening position, for the C10 witness. -/
def nodeW10c : Node := Node.mk [nodeW10] 1 [(2, 3)] initialBoard 0

/-- Witness for C10 at concrete inputs. -/
theorem valsZero_written_only_when_iterating_witness :
    valsZero 0 nodeW10 = true ∧
    nodeW10 = nodeW10 ∧
    nodeW10c.children.length = nodeW10c.children.length ∧
    (nodeW10.val = 0 ∨ ∃ c0 ∈ nodeW10c.children, ∃ a' b' e,
        minimaxAB c0 (1 - 1) a' b' (!true) = some (e, nodeW10)) :=
  ⟨valsZero_written_only_when_iterating.1 0 initialBoard 'b' nodeW10 (by rfl),
   (valsZero_written_only_when_iterating.2.1 nodeW10 0 (-99999999) 99999999 true
      0 nodeW10 (by rfl)).1 (Or.inl rfl),
   (valsZero_written_only_when_iterating.2.1 nodeW10c 1 (-99999999) 99999999 true
      0 nodeW10c (by rfl)).2.1,
   (valsZero_written_only_when_iterating.2.1 nodeW10c 1 (-99999999) 99999999 true
      0 nodeW10c (by rfl)).2.2.2 (by decide) nodeW10 (List.mem_cons_self _ _)⟩

/-! ### Claim C4: capture and frame correctness of `makeMove`

Ground work: grid facts, a termination measure for the directional walks,
stability of the spec-side run under placing the new disc, and the
correspondence between `flip`'s two walks and the spec-side run. -/

/-- Both coordinates on the 8×8 grid. -/
def inGrid (x y : Int) : Prop := 0 ≤ x ∧ x < 8 ∧ 0 ≤ y ∧ y < 8

instance (x y : Int) : Decidable (inGrid x y) := by
  unfold inGrid; infer_instance

theorem offBoard_false_iff {x y : Int} : offBoard x y = false ↔ inGrid x y := by
  simp only [offBoard, inGrid, Bool.or_eq_false_iff, decide_eq_false_iff_not]
  omega

theorem cellAt_eq_get? {board : Board} {x y : Int} (hg : inGrid x y) :
    cellAt board x y = board.get? (8 * x + y).toNat := by
  unfold cellAt
  rw [if_pos]
  exact ⟨hg.1, hg.2.1, hg.2.2.1, hg.2.2.2⟩

theorem readMem_eq_cellAt {board : Board} {x y : Int} (hg : inGrid x y) :
    readMem board x y = cellAt board x y := by
  unfold readMem getMem
  rw [cellAt_eq_get? hg]
  rw [if_pos]
  obtain ⟨h1, h2, h3, h4⟩ := hg
  omega

theorem cellAt_isSome {board : Board} {x y : Int} (hlen : board.length = 64)
    (hg : inGrid x y) : ∃ ch, cellAt board x y = some ch := by
  rw [cellAt_eq_get? hg]
  cases h : board.get? (8 * x + y).toNat with
  | none =>
    have := List.get?_eq_none.mp h
    obtain ⟨h1, h2, h3, h4⟩ := hg
    omega
  | some ch => exact ⟨ch, rfl⟩

theorem cellAt_notGrid {board : Board} {x y : Int} (hg : ¬inGrid x y) :
    cellAt board x y = none := by
  unfold cellAt
  rw [if_neg]
  intro ⟨h1, h2, h3, h4⟩
  exact hg ⟨h1, h2, h3, h4⟩

/-- Distinct grid cells have distinct flat indices. -/
theorem flatIdx_inj {x y r c : Int} (hg : inGrid x y) (hg2 : inGrid r c)
    (hne : (x, y) ≠ (r, c)) : (8 * x + y).toNat ≠ (8 * r + c).toNat := by
  obtain ⟨a1, a2, a3, a4⟩ := hg
  obtain ⟨b1, b2, b3, b4⟩ := hg2
  intro h
  apply hne
  have : x = r ∧ y = c := by omega
  rw [this.1, this.2]

theorem cellAt_setMem_ne {board : Board} {x y r c : Int} {v : Char}
    (hg : inGrid x y) (hg2 : inGrid r c) (hne : (x, y) ≠ (r, c)) :
    cellAt (setMem board r c v) x y = cellAt board x y := by
  rw [cellAt_eq_get? hg, cellAt_eq_get? hg]
  exact List.get?_set_ne v board (flatIdx_inj hg2 hg (Ne.symm hne))

theorem cellAt_setMem_self {board : Board} {r c : Int} {v : Char}
    (hlen : board.length = 64) (hg : inGrid r c) :
    cellAt (setMem board r c v) r c = some v := by
  rw [cellAt_eq_get? hg]
  apply List.get?_set_eq_of_lt
  obtain ⟨h1, h2, h3, h4⟩ := hg
  omega

theorem setMem_length {board : Board} {r c : Int} {v : Char} :
    (setMem board r c v).length = board.length := by
  unfold setMem
  exact List.length_set board _ v

/-- Number of in-grid steps remaining along a ray (components that do not
move contribute a sentinel larger than any grid distance). -/
def raySteps (dr dc x y : Int) : Nat :=
  min (if dr > 0 then (8 - x).toNat else if dr < 0 then (x + 1).toNat else 1000)
      (if dc > 0 then (8 - y).toNat else if dc < 0 then (y + 1).toNat else 1000)

theorem raySteps_pos {dr dc x y : Int} (hg : inGrid x y) :
    1 ≤ raySteps dr dc x y := by
  obtain ⟨h1, h2, h3, h4⟩ := hg
  unfold raySteps
  split_ifs <;> simp <;> omega

theorem raySteps_le_eight {dr dc x y : Int} (hg : inGrid x y)
    (hdr : -1 ≤ dr ∧ dr ≤ 1) (hdc : -1 ≤ dc ∧ dc ≤ 1)
    (hnz : ¬(dr = 0 ∧ dc = 0)) : raySteps dr dc x y ≤ 8 := by
  obtain ⟨h1, h2, h3, h4⟩ := hg
  unfold raySteps
  split_ifs <;> simp <;> omega

theorem raySteps_decr {dr dc x y : Int} (hg : inGrid x y)
    (hg2 : inGrid (x + dr) (y + dc))
    (hdr : -1 ≤ dr ∧ dr ≤ 1) (hdc : -1 ≤ dc ∧ dc ≤ 1)
    (hnz : ¬(dr = 0 ∧ dc = 0)) :
    raySteps dr dc (x + dr) (y + dc) < raySteps dr dc x y := by
  obtain ⟨h1, h2, h3, h4⟩ := hg
  obtain ⟨g1, g2, g3, g4⟩ := hg2
  unfold raySteps
  split_ifs <;> omega

/-- Positions on the open ray from `(r, c)` never hit `(r, c)`. -/
theorem ray_ne_center {r c dr dc : Int} (hnz : ¬(dr = 0 ∧ dc = 0)) (i : Nat)
    (hi : 1 ≤ i) : (r + (i : Int) * dr, c + (i : Int) * dc) ≠ (r, c) := by
  intro h
  have h1 : r + (i : Int) * dr = r := congrArg Prod.fst h
  have h2 : c + (i : Int) * dc = c := congrArg Prod.snd h
  have hi0 : (i : Int) ≠ 0 := by exact_mod_cast Nat.one_le_iff_ne_zero.mp hi
  have hdr : dr = 0 := by
    rcases mul_eq_zero.mp (by omega : (i : Int) * dr = 0) with h | h
    · exact absurd h hi0
    · exact h
  have hdc : dc = 0 := by
    rcases mul_eq_zero.mp (by omega : (i : Int) * dc = 0) with h | h
    · exact absurd h hi0
    · exact h
  exact hnz ⟨hdr, hdc⟩

/-- The spec-side run is unaffected by placing a disc at the probed cell. -/
theorem captureRun_setMem {board : Board} {r c dr dc : Int} {v other : Char}
    (hgrc : inGrid r c) (hnz : ¬(dr = 0 ∧ dc = 0)) :
    ∀ (fuel : Nat) (i : Nat), 1 ≤ i →
      captureRun (setMem board r c v) other dr dc fuel
          (r + (i : Int) * dr) (c + (i : Int) * dc) =
        captureRun board other dr dc fuel
          (r + (i : Int) * dr) (c + (i : Int) * dc) := by
  intro fuel
  induction fuel with
  | zero => intro i hi; rfl
  | succ n ih =>
    intro i hi
    have hne := ray_ne_center (r := r) (c := c) hnz i hi
    rw [captureRun, captureRun]
    have hread : cellAt (setMem board r c v) (r + (i : Int) * dr) (c + (i : Int) * dc) =
        cellAt board (r + (i : Int) * dr) (c + (i : Int) * dc) := by
      by_cases hg : inGrid (r + (i : Int) * dr) (c + (i : Int) * dc)
      · exact cellAt_setMem_ne hg hgrc hne
      · rw [cellAt_notGrid hg, cellAt_notGrid hg]
    rw [hread]
    cases cellAt board (r + (i : Int) * dr) (c + (i : Int) * dc) with
    | none => rfl
    | some ch =>
      simp only []
      by_cases hch : ch = other
      · rw [if_pos hch, if_pos hch]
        congr 1
        have e1 : r + (i : Int) * dr + dr = r + ((i + 1 : Nat) : Int) * dr := by
          push_cast; ring
        have e2 : c + (i : Int) * dc + dc = c + ((i + 1 : Nat) : Int) * dc := by
          push_cast; ring
        rw [e1, e2]
        exact ih (i + 1) (by omega)
      · rw [if_neg hch, if_neg hch]

/-- The spec-side run end is unaffected by placing a disc at the probed cell. -/
theorem captureEnd_setMem {board : Board} {r c dr dc : Int} {v other : Char}
    (hgrc : inGrid r c) (hnz : ¬(dr = 0 ∧ dc = 0)) :
    ∀ (fuel : Nat) (i : Nat), 1 ≤ i →
      captureEnd (setMem board r c v) other dr dc fuel
          (r + (i : Int) * dr) (c + (i : Int) * dc) =
        captureEnd board other dr dc fuel
          (r + (i : Int) * dr) (c + (i : Int) * dc) := by
  intro fuel
  induction fuel with
  | zero => intro i hi; rfl
  | succ n ih =>
    intro i hi
    have hne := ray_ne_center (r := r) (c := c) hnz i hi
    rw [captureEnd, captureEnd]
    have hread : cellAt (setMem board r c v) (r + (i : Int) * dr) (c + (i : Int) * dc) =
        cellAt board (r + (i : Int) * dr) (c + (i : Int) * dc) := by
      by_cases hg : inGrid (r + (i : Int) * dr) (c + (i : Int) * dc)
      · exact cellAt_setMem_ne hg hgrc hne
      · rw [cellAt_notGrid hg, cellAt_notGrid hg]
    rw [hread]
    cases cellAt board (r + (i : Int) * dr) (c + (i : Int) * dc) with
    | none => rfl
    | some ch =>
      simp only []
      by_cases hch : ch = other
      · rw [if_pos hch, if_pos hch]
        have e1 : r + (i : Int) * dr + dr = r + ((i + 1 : Nat) : Int) * dr := by
          push_cast; ring
        have e2 : c + (i : Int) * dc + dc = c + ((i + 1 : Nat) : Int) * dc := by
          push_cast; ring
        rw [e1, e2]
        exact ih (i + 1) (by omega)
      · rw [if_neg hch, if_neg hch]

/-- `flip`'s probing walk agrees with the spec-side run end: it returns the
character past the run, or the opponent's character when the run leaves the
grid (the loop then breaks with `char_in_pos` still the opponent's). -/
theorem flipScan_agree {B : Board} {other : Char} {dr dc : Int}
    (hlen : B.length = 64)
    (hdr : -1 ≤ dr ∧ dr ≤ 1) (hdc : -1 ≤ dc ∧ dc ≤ 1)
    (hnz : ¬(dr = 0 ∧ dc = 0)) :
    ∀ (n : Nat) (x y : Int) (ch : Char) (f1 f2 : Nat),
      inGrid x y → raySteps dr dc x y ≤ n → n < f1 → n < f2 →
      cellAt B x y = some ch →
      flipScan B other dr dc f1 x y ch =
        match captureEnd B other dr dc f2 x y with
        | some e => some e
        | none => some other := by
  intro n
  induction n with
  | zero =>
    intro x y ch f1 f2 hg hsteps _ _ _
    exact absurd hsteps (by have := @raySteps_pos dr dc _ _ hg; omega)
  | succ n ih =>
    intro x y ch f1 f2 hg hsteps hf1 hf2 hcell
    obtain ⟨f1', rfl⟩ : ∃ k, f1 = k + 1 := ⟨f1 - 1, by omega⟩
    obtain ⟨f2', rfl⟩ : ∃ k, f2 = k + 1 := ⟨f2 - 1, by omega⟩
    rw [flipScan, captureEnd, hcell]
    simp only []
    by_cases hch : ch = other
    · rw [if_pos hch, if_pos hch]
      by_cases hg2 : inGrid (x + dr) (y + dc)
      · have hob : offBoard (x + dr) (y + dc) = false := offBoard_false_iff.mpr hg2
        rw [hob]
        simp only [Bool.false_eq_true, if_false]
        obtain ⟨ch2, hch2⟩ := cellAt_isSome hlen hg2
        rw [readMem_eq_cellAt hg2, hch2]
        have hdecr := raySteps_decr hg hg2 hdr hdc hnz
        exact ih (x + dr) (y + dc) ch2 f1' f2' hg2 (by omega) (by omega) (by omega) hch2
      · have hob : offBoard (x + dr) (y + dc) = true := by
          cases h : offBoard (x + dr) (y + dc) with
          | false => exact absurd (offBoard_false_iff.mp h) hg2
          | true => rfl
        rw [hob]
        simp only [if_true]
        have hre : captureEnd B other dr dc f2' (x + dr) (y + dc) = none := by
          cases f2' with
          | zero => rfl
          | succ m => rw [captureEnd, cellAt_notGrid hg2]
        rw [hre, hch]
    · rw [if_neg hch, if_neg hch]

/-- `flip`'s collecting walk produces exactly the spec-side run, provided the
run ends on the grid (the qualification that guards the collecting walk). -/
theorem flipCollect_agree {B : Board} {other : Char} {dr dc : Int}
    (hlen : B.length = 64)
    (hdr : -1 ≤ dr ∧ dr ≤ 1) (hdc : -1 ≤ dc ∧ dc ≤ 1)
    (hnz : ¬(dr = 0 ∧ dc = 0)) :
    ∀ (n : Nat) (x y : Int) (ch : Char) (f1 f2 : Nat),
      inGrid x y → raySteps dr dc x y ≤ n → n < f1 → n < f2 →
      cellAt B x y = some ch →
      (∃ e, captureEnd B other dr dc f2 x y = some e) →
      flipCollect B other dr dc f1 x y ch =
        some (captureRun B other dr dc f2 x y) := by
  intro n
  induction n with
  | zero =>
    intro x y ch f1 f2 hg hsteps _ _ _ _
    exact absurd hsteps (by have := @raySteps_pos dr dc _ _ hg; omega)
  | succ n ih =>
    intro x y ch f1 f2 hg hsteps hf1 hf2 hcell hex
    obtain ⟨f1', rfl⟩ : ∃ k, f1 = k + 1 := ⟨f1 - 1, by omega⟩
    obtain ⟨f2', rfl⟩ : ∃ k, f2 = k + 1 := ⟨f2 - 1, by omega⟩
    rw [flipCollect, captureRun, hcell]
    simp only []
    by_cases hch : ch = other
    · rw [if_pos hch, if_pos hch]
      obtain ⟨e, he⟩ := hex
      rw [captureEnd, hcell] at he
      simp only [] at he
      rw [if_pos hch] at he
      by_cases hg2 : inGrid (x + dr) (y + dc)
      · obtain ⟨ch2, hch2⟩ := cellAt_isSome hlen hg2
        rw [readMem_eq_cellAt hg2, hch2]
        simp only []
        have hdecr := raySteps_decr hg hg2 hdr hdc hnz
        rw [ih (x + dr) (y + dc) ch2 f1' f2' hg2 (by omega) (by omega) (by omega)
          hch2 ⟨e, he⟩]
        rfl
      · exfalso
        have hre : captureEnd B other dr dc f2' (x + dr) (y + dc) = none := by
          cases f2' with
          | zero => rfl
          | succ m => rw [captureEnd, cellAt_notGrid hg2]
        rw [hre] at he
        exact Option.noConfusion he
    · rw [if_neg hch, if_neg hch]

/-- A `some` cell is on the grid. -/
theorem cellAt_some_inGrid {B : Board} {x y : Int} {ch : Char}
    (h : cellAt B x y = some ch) : inGrid x y := by
  by_contra hg
  rw [cellAt_notGrid hg] at h
  exact Option.noConfusion h

/-- Unfolding the spec-side run one step at fuel 64. -/
theorem captureRun64 (B : Board) (other : Char) (dr dc x y : Int) :
    captureRun B other dr dc 64 x y =
      (match cellAt B x y with
       | some ch =>
         if ch = other then
           (x, y) :: captureRun B other dr dc 63 (x + dr) (y + dc)
         else []
       | none => []) := rfl

/-- Every cell of the spec-side run is on the grid and holds the opponent. -/
theorem captureRun_mem {B : Board} {other : Char} {dr dc : Int} :
    ∀ (fuel : Nat) (x y : Int) (p : Int × Int),
      p ∈ captureRun B other dr dc fuel x y →
      inGrid p.1 p.2 ∧ cellAt B p.1 p.2 = some other := by
  intro fuel
  induction fuel with
  | zero => intro x y p hp; simp [captureRun] at hp
  | succ n ih =>
    intro x y p hp
    rw [captureRun] at hp
    cases hc : cellAt B x y with
    | none => rw [hc] at hp; simp at hp
    | some ch =>
      rw [hc] at hp
      simp only [] at hp
      by_cases hch : ch = other
      · rw [if_pos hch] at hp
        rcases List.mem_cons.mp hp with rfl | hp2
        · subst hch
          exact ⟨cellAt_some_inGrid hc, hc⟩
        · exact ih (x + dr) (y + dc) p hp2
      · rw [if_neg hch] at hp
        simp at hp

/-- Evaluation of `flip`'s per-direction body: it contributes exactly the
spec-side run when the direction qualifies, and nothing otherwise. -/
theorem flipDir_eval {B : Board} {r c dr dc : Int} {player other : Char}
    (hlen : B.length = 64) (hop : other ≠ player)
    (hdr : -1 ≤ dr ∧ dr ≤ 1) (hdc : -1 ≤ dc ∧ dc ≤ 1)
    (hnz : ¬(dr = 0 ∧ dc = 0)) :
    flipDir B r c player other dr dc =
      some (if captureEnd B other dr dc 64 (r + dr) (c + dc) = some player ∧
              captureRun B other dr dc 64 (r + dr) (c + dc) ≠ []
            then captureRun B other dr dc 64 (r + dr) (c + dc) else []) := by
  rw [flipDir]
  by_cases hg : inGrid (r + dr) (c + dc)
  · have hob : offBoard (r + dr) (c + dc) = false := offBoard_false_iff.mpr hg
    rw [hob]
    simp only [Bool.false_eq_true, if_false]
    obtain ⟨ch, hch⟩ := cellAt_isSome hlen hg
    rw [readMem_eq_cellAt hg, hch]
    simp only []
    by_cases hcho : ch = other
    · rw [if_pos hcho]
      have hsteps : raySteps dr dc (r + dr) (c + dc) ≤ 8 :=
        raySteps_le_eight hg hdr hdc hnz
      rw [flipScan_agree hlen hdr hdc hnz 8 (r + dr) (c + dc) ch 100 64 hg hsteps
        (by omega) (by omega) hch]
      have hrun_ne : captureRun B other dr dc 64 (r + dr) (c + dc) ≠ [] := by
        rw [captureRun64, hch]
        simp only []
        rw [if_pos hcho]
        exact List.cons_ne_nil _ _
      cases hce : captureEnd B other dr dc 64 (r + dr) (c + dc) with
      | none =>
        simp only []
        rw [if_neg hop,
          if_neg (by rintro ⟨h1, -⟩; exact Option.noConfusion h1)]
      | some e =>
        simp only []
        by_cases hep : e = player
        · rw [if_pos hep,
            flipCollect_agree hlen hdr hdc hnz 8 (r + dr) (c + dc) ch 100 64 hg
              hsteps (by omega) (by omega) hch ⟨e, hce⟩,
            if_pos ⟨by rw [hep], hrun_ne⟩]
        · rw [if_neg hep,
            if_neg (by
              rintro ⟨h1, -⟩
              exact hep (Option.some.inj h1))]
    · rw [if_neg hcho]
      have hrun : captureRun B other dr dc 64 (r + dr) (c + dc) = [] := by
        rw [captureRun64, hch]
        simp only []
        rw [if_neg hcho]
      rw [if_neg (fun hh => hh.2 hrun)]
  · have hob : offBoard (r + dr) (c + dc) = true := by
      cases h : offBoard (r + dr) (c + dc) with
      | false => exact absurd (offBoard_false_iff.mp h) hg
      | true => rfl
    rw [hob]
    simp only [if_true]
    have hrun : captureRun B other dr dc 64 (r + dr) (c + dc) = [] := by
      rw [captureRun64, cellAt_notGrid hg]
    rw [if_neg (fun hh => hh.2 hrun)]

/-- `flipGather` concatenates the per-direction contributions. -/
theorem flipGather_eval {B : Board} {r c : Int} {player other : Char}
    (F : Int × Int → List (Int × Int)) :
    ∀ ds : List (Int × Int),
      (∀ d ∈ ds, flipDir B r c player other d.1 d.2 = some (F d)) →
      flipGather B r c player other ds = some (ds.flatMap F) := by
  intro ds
  induction ds with
  | nil => intro _; rfl
  | cons d rest ih =>
    intro hall
    rw [flipGather, hall d (List.mem_cons_self d rest),
      ih fun d' hd' => hall d' (List.mem_cons_of_mem d hd')]
    rfl

/-- A list whose `q`-filter is empty contributes nothing. -/
theorem flatMap_if_nil {q : Int × Int → Bool} {F : Int × Int → List (Int × Int)} :
    ∀ ds : List (Int × Int), ds.filter q = [] →
      (ds.flatMap fun d => if q d then F d else []) = [] := by
  intro ds
  induction ds with
  | nil => intro _; rfl
  | cons d rest ih =>
    intro hf
    rw [List.filter_cons] at hf
    by_cases hq : q d
    · rw [if_pos hq] at hf
      exact absurd hf (List.cons_ne_nil _ _)
    · rw [if_neg hq] at hf
      rw [List.flatMap_cons, if_neg (by simp [hq]), List.nil_append]
      exact ih hf

/-- A list whose `q`-filter is the singleton `[d0]` contributes `F d0`. -/
theorem flatMap_if_single {q : Int × Int → Bool} {F : Int × Int → List (Int × Int)} :
    ∀ (ds : List (Int × Int)) (d0 : Int × Int), ds.filter q = [d0] →
      (ds.flatMap fun d => if q d then F d else []) = F d0 := by
  intro ds
  induction ds with
  | nil => intro d0 h; exact absurd h.symm (List.cons_ne_nil _ _)
  | cons d rest ih =>
    intro d0 hf
    rw [List.filter_cons] at hf
    by_cases hq : q d
    · rw [if_pos hq] at hf
      have h0 : d = d0 := (List.cons.injEq _ _ _ _ ▸ hf).1
      have h1 : rest.filter q = [] := (List.cons.injEq _ _ _ _ ▸ hf).2
      rw [List.flatMap_cons, if_pos (by simp [hq]), flatMap_if_nil rest h1,
        List.append_nil, h0]
    · rw [if_neg hq] at hf
      rw [List.flatMap_cons, if_neg (by simp [hq]), List.nil_append]
      exact ih d0 hf

/-- Reading the board after `flip`'s write loop: a cell is the player's
exactly when it was collected (or already was that value). -/
theorem foldl_setMem_cellAt {player : Char} :
    ∀ (l : List (Int × Int)) (B : Board), B.length = 64 →
      (∀ p ∈ l, inGrid p.1 p.2) →
      ∀ x y : Int, inGrid x y →
        cellAt (l.foldl (fun b pos => setMem b pos.1 pos.2 player) B) x y =
          if (x, y) ∈ l then some player else cellAt B x y := by
  intro l
  induction l with
  | nil =>
    intro B hlen hmem x y hg
    simp
  | cons p rest ih =>
    intro B hlen hmem x y hg
    rw [List.foldl_cons,
      ih (setMem B p.1 p.2 player) (by rw [setMem_length]; exact hlen)
        (fun q hq => hmem q (List.mem_cons_of_mem p hq)) x y hg]
    have hgp := hmem p (List.mem_cons_self p rest)
    by_cases hin : (x, y) ∈ rest
    · rw [if_pos hin, if_pos (List.mem_cons_of_mem p hin)]
    · rw [if_neg hin]
      by_cases hxy : (x, y) = p
      · rw [if_pos (by rw [hxy]; exact List.mem_cons_self p rest)]
        have : cellAt (setMem B p.1 p.2 player) p.1 p.2 = some player :=
          cellAt_setMem_self hlen hgp
        rw [show x = p.1 from congrArg Prod.fst hxy,
          show y = p.2 from congrArg Prod.snd hxy]
        exact this
      · rw [cellAt_setMem_ne hg hgp (by
          intro hh
          exact hxy (by rcases p with ⟨p1, p2⟩; exact hh))]
        rw [if_neg (by
          intro hh
          rcases List.mem_cons.mp hh with h1 | h1
          · exact hxy h1
          · exact hin h1)]

theorem otherPlayer_ne (p : Char) : otherPlayer p ≠ p := by
  unfold otherPlayer
  by_cases h : p = 'b'
  · rw [if_pos h, h]; decide
  · rw [if_neg h]; exact fun hh => h hh.symm

theorem otherPlayer_ne_dash (p : Char) : otherPlayer p ≠ '-' := by
  unfold otherPlayer
  by_cases h : p = 'b'
  · rw [if_pos h]; decide
  · rw [if_neg h]; decide

theorem dirCaptures_iff {board : Board} {r c dr dc : Int} {player : Char} :
    dirCaptures board r c dr dc player = true ↔
      (captureRun board (otherPlayer player) dr dc 64 (r + dr) (c + dc) ≠ [] ∧
       captureEnd board (otherPlayer player) dr dc 64 (r + dr) (c + dc) =
         some player) := by
  unfold dirCaptures
  simp [Bool.and_eq_true, decide_eq_true_eq]

/-- C4: if the move `(r, c)` is legal for `player` with exactly one
qualifying capture direction `d0`, whose opposing run is `R` (length `k`),
then `makeMove` sets `(r, c)` to the player's piece, flips exactly the `k`
opposing cells of `R` to the player's piece, and leaves every other cell
unchanged. -/
theorem makeMove_single_capture (board : Board) (r c : Int) (player : Char)
    (d0 : Int × Int)
    (hlen : board.length = 64)
    (hgr : inGrid r c)
    (hempty : cellAt board r c = some '-')
    (huniq : surroundingPosDeltas.filter
        (fun d => dirCaptures board r c d.1 d.2 player) = [d0]) :
    ∃ b', makeMove board r c player = some b' ∧
      cellAt b' r c = some player ∧
      (∀ pos ∈ captureRun board (otherPlayer player) d0.1 d0.2 64
          (r + d0.1) (c + d0.2),
        cellAt board pos.1 pos.2 = some (otherPlayer player) ∧
        cellAt b' pos.1 pos.2 = some player) ∧
      (∀ x y : Int, inGrid x y → (x, y) ≠ (r, c) →
        (x, y) ∉ captureRun board (otherPlayer player) d0.1 d0.2 64
          (r + d0.1) (c + d0.2) →
        cellAt b' x y = cellAt board x y) := by
  set other := otherPlayer player with hother
  set b1 := setMem board r c player with hb1
  have hlen1 : b1.length = 64 := by rw [hb1, setMem_length]; exact hlen
  have hop : other ≠ player := otherPlayer_ne player
  have hds : ∀ d ∈ surroundingPosDeltas,
      ((-1 ≤ d.1 ∧ d.1 ≤ 1) ∧ (-1 ≤ d.2 ∧ d.2 ≤ 1) ∧ ¬(d.1 = 0 ∧ d.2 = 0)) := by
    decide
  have hstabR : ∀ d ∈ surroundingPosDeltas,
      captureRun b1 other d.1 d.2 64 (r + d.1) (c + d.2) =
        captureRun board other d.1 d.2 64 (r + d.1) (c + d.2) := by
    intro d hd
    have h := @captureRun_setMem board _ _ _ _ player other
      hgr ((hds d hd).2.2) 64 1 (le_refl 1)
    have e1 : r + ((1 : Nat) : Int) * d.1 = r + d.1 := by push_cast; ring
    have e2 : c + ((1 : Nat) : Int) * d.2 = c + d.2 := by push_cast; ring
    rw [e1, e2] at h
    exact h
  have hstabE : ∀ d ∈ surroundingPosDeltas,
      captureEnd b1 other d.1 d.2 64 (r + d.1) (c + d.2) =
        captureEnd board other d.1 d.2 64 (r + d.1) (c + d.2) := by
    intro d hd
    have h := @captureEnd_setMem board _ _ _ _ player other
      hgr ((hds d hd).2.2) 64 1 (le_refl 1)
    have e1 : r + ((1 : Nat) : Int) * d.1 = r + d.1 := by push_cast; ring
    have e2 : c + ((1 : Nat) : Int) * d.2 = c + d.2 := by push_cast; ring
    rw [e1, e2] at h
    exact h
  have hflip : ∀ d ∈ surroundingPosDeltas,
      flipDir b1 r c player other d.1 d.2 =
        some (if dirCaptures board r c d.1 d.2 player then
          captureRun board other d.1 d.2 64 (r + d.1) (c + d.2) else []) := by
    intro d hd
    rw [flipDir_eval hlen1 hop (hds d hd).1 (hds d hd).2.1 (hds d hd).2.2]
    congr 1
    rw [hstabR d hd, hstabE d hd]
    by_cases hq : dirCaptures board r c d.1 d.2 player = true
    · obtain ⟨hrun, hend⟩ := dirCaptures_iff.mp hq
      rw [if_pos ⟨hend, hrun⟩, if_pos hq]
    · rw [if_neg (fun hh => hq (dirCaptures_iff.mpr ⟨hh.2, hh.1⟩)),
        if_neg (by simpa using hq)]
  have hgather : flipGather b1 r c player other surroundingPosDeltas =
      some (captureRun board other d0.1 d0.2 64 (r + d0.1) (c + d0.2)) := by
    rw [flipGather_eval
        (fun d => if dirCaptures board r c d.1 d.2 player then
          captureRun board other d.1 d.2 64 (r + d.1) (c + d.2) else [])
        surroundingPosDeltas hflip,
      flatMap_if_single surroundingPosDeltas d0 huniq]
  set R := captureRun board other d0.1 d0.2 64 (r + d0.1) (c + d0.2) with hR
  have hmem : ∀ p ∈ R, inGrid p.1 p.2 :=
    fun p hp => (captureRun_mem 64 _ _ p hp).1
  have hmm : makeMove board r c player =
      some (R.foldl (fun b pos => setMem b pos.1 pos.2 player) b1) := by
    show Othello.flip b1 r c player = _
    rw [Othello.flip, ← hother, hgather]
    rfl
  refine ⟨_, hmm, ?_, ?_, ?_⟩
  · have hnotR : (r, c) ∉ R := by
      intro hin
      have h2 := (captureRun_mem 64 _ _ (r, c) hin).2
      exact otherPlayer_ne_dash player (Option.some.inj (h2.symm.trans hempty))
    rw [foldl_setMem_cellAt R b1 hlen1 hmem r c hgr, if_neg hnotR,
      cellAt_setMem_self hlen hgr]
  · intro pos hpos
    refine ⟨(captureRun_mem 64 _ _ pos hpos).2, ?_⟩
    rw [foldl_setMem_cellAt R b1 hlen1 hmem pos.1 pos.2
        (captureRun_mem 64 _ _ pos hpos).1,
      if_pos (by simpa using hpos)]
  · intro x y hg hne hnin
    rw [foldl_setMem_cellAt R b1 hlen1 hmem x y hg, if_neg hnin,
      cellAt_setMem_ne hg hgr hne]

/-- Board for the C4 witness: White at (3,4), Black at (3,5); Black plays
(3,3), whose single capture direction is (0,1) with run [(3,4)]. -/
def boardC4 : Board := List.flatten (List.map String.toList
  [ "--------"
  , "--------"
  , "--------"
  , "----wb--"
  , "--------"
  , "--------"
  , "--------"
  , "--------" ])

/-- Witness for C4 at a concrete single-capture position. -/
theorem makeMove_single_capture_witness :
    ∃ b', makeMove boardC4 3 3 'b' = some b' ∧
      cellAt b' 3 3 = some 'b' ∧
      (∀ pos ∈ captureRun boardC4 (otherPlayer 'b') 0 1 64 (3 + 0) (3 + 1),
        cellAt boardC4 pos.1 pos.2 = some (otherPlayer 'b') ∧
        cellAt b' pos.1 pos.2 = some 'b') ∧
      (∀ x y : Int, inGrid x y → (x, y) ≠ (3, 3) →
        (x, y) ∉ captureRun boardC4 (otherPlayer 'b') 0 1 64 (3 + 0) (3 + 1) →
        cellAt b' x y = cellAt boardC4 x y) :=
  makeMove_single_capture boardC4 3 3 'b' (0, 1) (by decide) (by decide)
    (by decide) (by decide)

/-! ### Claim C3: pruned vs non-pruned search

The two parts of the claim are settled separately: the root values agree
(proved below as `minimax_root_value_equiv`), but a node that the pruned
search fully visits — recursing into every child with the cut condition
never holding — can still receive a different `val` than under the
non-pruning variant, because its children's returned values are only
window-accurate.  `minimaxABi` is `minimaxAB` instrumented with a flag
recording exactly that full-visitation condition. -/

/-- A search-tree node annotated with the full-visitation flag:
children as annotated, the written `val`, and whether this call iterated
over all children with the cut condition never true. -/
inductive INode where
  | mk : List INode → Int → Bool → INode

/-- Children of the annotated node. -/
def INode.kids : INode → List INode
  | .mk ks _ _ => ks

/-- The `val` recorded by the instrumented search. -/
def INode.ival : INode → Int
  | .mk _ v _ => v

/-- True iff the search recursed into all children without a cut. -/
def INode.iterAll : INode → Bool
  | .mk _ _ f => f

/-- An unvisited node, carrying its untouched `val`. -/
def toStub (c : Node) : INode := INode.mk [] c.val false

/-- `abMaxGo` with visitation flag. -/
def abMaxGoI (f : Node → Int → Int → Option (Int × INode)) :
    Nat → List Node → Int → Int → Int → Option (Int × Int × List INode × Bool)
  | 0, cs, alpha, _beta, maxEval => some (maxEval, alpha, cs.map toStub, true)
  | _cc + 1, [], _, _, _ => none
  | cc + 1, c :: rest, alpha, beta, maxEval =>
    match f c alpha beta with
    | none => none
    | some (eval, ci) =>
      if beta ≤ max alpha eval then
        some (max maxEval eval, max alpha eval, ci :: rest.map toStub, false)
      else
        (abMaxGoI f cc rest (max alpha eval) beta (max maxEval eval)).map
          fun r => (r.1, r.2.1, ci :: r.2.2.1, r.2.2.2)

/-- `abMinGo` with visitation flag. -/
def abMinGoI (f : Node → Int → Int → Option (Int × INode)) :
    Nat → List Node → Int → Int → Int → Option (Int × Int × List INode × Bool)
  | 0, cs, _alpha, beta, minEval => some (minEval, beta, cs.map toStub, true)
  | _cc + 1, [], _, _, _ => none
  | cc + 1, c :: rest, alpha, beta, minEval =>
    match f c alpha beta with
    | none => none
    | some (eval, ci) =>
      if min beta eval ≤ alpha then
        some (min minEval eval, min beta eval, ci :: rest.map toStub, false)
      else
        (abMinGoI f cc rest alpha (min beta eval) (min minEval eval)).map
          fun r => (r.1, r.2.1, ci :: r.2.2.1, r.2.2.2)

/-- The alpha-beta search of main.cpp lines 398-441, instrumented with the
full-visitation flag; values and `val` writes are identical to `minimaxAB`. -/
def minimaxABi : Node → Nat → Int → Int → Bool → Option (Int × INode)
  | pos, 0, _, _, _ =>
    (heuristic pos.state).map fun h =>
      (h, INode.mk (pos.children.map toStub) pos.val false)
  | pos, d + 1, alpha, beta, maximizing =>
    match isGameOver pos.state with
    | none => none
    | some true =>
      (heuristic pos.state).map fun h =>
        (h, INode.mk (pos.children.map toStub) pos.val false)
    | some false =>
      if maximizing then
        (abMaxGoI (fun c a b' => minimaxABi c d a b' false)
            pos.childCount pos.children alpha beta (-9999999)).map
          fun r => (r.1, INode.mk r.2.2.1 r.1 r.2.2.2)
      else
        (abMinGoI (fun c a b' => minimaxABi c d a b' true)
            pos.childCount pos.children alpha beta 9999999).map
          fun r => (r.1, INode.mk r.2.2.1 r.1 r.2.2.2)

/-- Follow a child-index path in an annotated tree. -/
def INode.atPath : INode → List Nat → Option INode
  | n, [] => some n
  | n, i :: rest =>
    match n.kids.get? i with
    | none => none
    | some c => INode.atPath c rest

/-- Follow a child-index path in a tree. -/
def Node.atPath : Node → List Nat → Option Node
  | n, [] => some n
  | n, i :: rest =>
    match n.children.get? i with
    | none => none
    | some c => Node.atPath c rest

/-- Board for the C3 counterexample (Black to move, depth 4). -/
def boardC3 : Board := List.flatten (List.map String.toList
  [ "--------"
  , "-------b"
  , "-------b"
  , "------w-"
  , "--------"
  , "--------"
  , "---wb---"
  , "-w------" ])

/-- C3 counterexample: on `boardC3` at depth 4, the node at path [1,0] is
fully visited by the pruned search (it recurses into all of its children
and the cut condition never holds there), yet its recorded `val` is -1
under alpha-beta and -2 under the non-pruning variant.  The root values
agree (both 0), as the amended claim states. -/
theorem minimaxAB_fully_visited_val_differs :
    ((CreateTree boardC3 4 'b').bind fun t =>
        (minimaxABi t 4 (-99999999) 99999999 true).map fun r =>
          (INode.atPath r.2 [1, 0]).map fun n => (n.iterAll, n.ival)) =
      some (some (true, -1)) ∧
    ((CreateTree boardC3 4 'b').bind fun t =>
        (minimaxAB t 4 (-99999999) 99999999 true).map fun r =>
          (Node.atPath r.2 [1, 0]).map fun n => n.val) = some (some (-1)) ∧
    ((CreateTree boardC3 4 'b').bind fun t =>
        (minimaxPlain t 4 true).map fun r =>
          (Node.atPath r.2 [1, 0]).map fun n => n.val) = some (some (-2)) ∧
    ((CreateTree boardC3 4 'b').bind fun t =>
        (minimaxAB t 4 (-99999999) 99999999 true).map fun r => r.1) = some 0 ∧
    ((CreateTree boardC3 4 'b').bind fun t =>
        (minimaxPlain t 4 true).map fun r => r.1) = some 0 ∧
    ((-1 : Int) ≠ -2) := by decide

/-- The plain maximizing loop only raises its accumulator. -/
theorem plainMaxGo_ge (f : Node → Option (Int × Node)) :
    ∀ (cc : Nat) (cs : List Node) (m0 G : Int) (cs' : List Node),
      plainMaxGo f cc cs m0 = some (G, cs') → m0 ≤ G := by
  intro cc
  induction cc with
  | zero =>
    intro cs m0 G cs' h
    rw [plainMaxGo] at h
    obtain ⟨rfl, -⟩ : m0 = G ∧ cs = cs' := by simpa using h
    exact le_refl _
  | succ n ih =>
    intro cs m0 G cs' h
    cases cs with
    | nil => exact absurd h (by simp [plainMaxGo])
    | cons c rest =>
      rw [plainMaxGo] at h
      cases hf : f c with
      | none => rw [hf] at h; exact absurd h (by simp)
      | some ec =>
        obtain ⟨e1, c1⟩ := ec
        rw [hf] at h
        simp only [Option.map_eq_some'] at h
        obtain ⟨r, hr, hr2⟩ := h
        have h1 := ih rest (max m0 e1) r.1 r.2 (by simpa using hr)
        have hG : r.1 = G := congrArg Prod.fst hr2
        have h2 := le_max_left m0 e1
        omega

/-- The plain minimizing loop only lowers its accumulator. -/
theorem plainMinGo_le (f : Node → Option (Int × Node)) :
    ∀ (cc : Nat) (cs : List Node) (m0 G : Int) (cs' : List Node),
      plainMinGo f cc cs m0 = some (G, cs') → G ≤ m0 := by
  intro cc
  induction cc with
  | zero =>
    intro cs m0 G cs' h
    rw [plainMinGo] at h
    obtain ⟨rfl, -⟩ : m0 = G ∧ cs = cs' := by simpa using h
    exact le_refl _
  | succ n ih =>
    intro cs m0 G cs' h
    cases cs with
    | nil => exact absurd h (by simp [plainMinGo])
    | cons c rest =>
      rw [plainMinGo] at h
      cases hf : f c with
      | none => rw [hf] at h; exact absurd h (by simp)
      | some ec =>
        obtain ⟨e1, c1⟩ := ec
        rw [hf] at h
        simp only [Option.map_eq_some'] at h
        obtain ⟨r, hr, hr2⟩ := h
        have h1 := ih rest (min m0 e1) r.1 r.2 (by simpa using hr)
        have hG : r.1 = G := congrArg Prod.fst hr2
        have h2 := min_le_left m0 e1
        omega

/-- The legal-move scan yields at most one move per scanned cell. -/
theorem calcLegalGo_length {board : Board} {player : Char} :
    ∀ (ds : List (Int × Int)) (L : List (Int × Int)),
      calcLegalGo board player ds = some L → L.length ≤ ds.length := by
  intro ds
  induction ds with
  | nil =>
    intro L h
    obtain rfl : ([] : List (Int × Int)) = L := by simpa [calcLegalGo] using h
    simp
  | cons m rest ih =>
    intro L h
    obtain ⟨i, j⟩ := m
    rw [calcLegalGo] at h
    cases hread : readMem board i j with
    | none => rw [hread] at h; exact absurd h (by simp)
    | some ch =>
      rw [hread] at h
      simp only [] at h
      by_cases hch : ch = '-'
      · rw [if_pos hch] at h
        cases hfl : isFlippable board i j player with
        | none => rw [hfl] at h; exact absurd h (by simp)
        | some fl =>
          rw [hfl] at h
          cases fl with
          | true =>
            simp only [Option.map_eq_some'] at h
            obtain ⟨L2, hL2, rfl⟩ := h
            have := ih L2 hL2
            simp only [List.length_cons]
            omega
          | false =>
            have := ih L h
            simp only [List.length_cons]
            omega
      · rw [if_neg hch] at h
        have := ih L h
        simp only [List.length_cons]
        omega

/-- The piece-count fold stays within the number of scanned cells. -/
theorem getScore_fold_bounds {board : Board} {player : Char} :
    ∀ (l : List (Int × Int)) (acc : Int),
      acc ≤ l.foldl (fun t m => if readMem board m.1 m.2 = some player then t + 1 else t) acc ∧
      l.foldl (fun t m => if readMem board m.1 m.2 = some player then t + 1 else t) acc ≤
        acc + l.length := by
  intro l
  induction l with
  | nil => intro acc; simp
  | cons m rest ih =>
    intro acc
    rw [List.foldl_cons]
    by_cases h : readMem board m.1 m.2 = some player
    · rw [if_pos h]
      have := ih (acc + 1)
      simp only [List.length_cons]
      omega
    · rw [if_neg h]
      have := ih acc
      simp only [List.length_cons]
      omega

theorem getScore_bounds (board : Board) (player : Char) :
    0 ≤ getScore board player ∧ getScore board player ≤ 64 := by
  unfold getScore
  have h := @getScore_fold_bounds board player coordList 0
  have hlen : coordList.length = 64 := by decide
  omega

theorem cornerBonus_bounds (board : Board) (player : Char) :
    0 ≤ cornerBonus board player ∧ cornerBonus board player ≤ 40 := by
  unfold cornerBonus
  split_ifs <;> omega

/-- The heuristic is far inside the loop sentinels ±9999999. -/
theorem heuristic_bounds {board : Board} {h : Int}
    (hh : heuristic board = some h) : -9999999 ≤ h ∧ h ≤ 9999999 := by
  unfold heuristic at hh
  cases hb : getBlackLegalMoves board with
  | none => rw [hb] at hh; exact absurd hh (by simp)
  | some bl =>
    rw [hb] at hh
    cases hw : getWhiteLegalMoves board with
    | none => rw [hw] at hh; exact absurd hh (by simp)
    | some wl =>
      rw [hw] at hh
      simp only [Option.some.injEq] at hh
      have hbl : bl.length ≤ 64 := by
        have := @calcLegalGo_length board 'b' coordList bl hb
        have hlen : coordList.length = 64 := by decide
        omega
      have hwl : wl.length ≤ 64 := by
        have := @calcLegalGo_length board 'w' coordList wl hw
        have hlen : coordList.length = 64 := by decide
        omega
      have h1 := getScore_bounds board 'b'
      have h2 := getScore_bounds board 'w'
      have h3 := cornerBonus_bounds board 'b'
      have h4 := cornerBonus_bounds board 'w'
      have hbl2 : (0 : Int) ≤ bl.length := by positivity
      have hwl2 : (0 : Int) ≤ wl.length := by positivity
      have hbl3 : (bl.length : Int) ≤ 64 := by exact_mod_cast hbl
      have hwl3 : (wl.length : Int) ≤ 64 := by exact_mod_cast hwl
      omega

/-- The plain maximizing loop keeps values within the sentinels. -/
theorem plainMaxGo_bounds (f : Node → Option (Int × Node))
    (hf : ∀ c e c', f c = some (e, c') → -9999999 ≤ e ∧ e ≤ 9999999) :
    ∀ (cc : Nat) (cs : List Node) (m0 G : Int) (cs' : List Node),
      plainMaxGo f cc cs m0 = some (G, cs') →
      -9999999 ≤ m0 → m0 ≤ 9999999 → -9999999 ≤ G ∧ G ≤ 9999999 := by
  intro cc
  induction cc with
  | zero =>
    intro cs m0 G cs' h h1 h2
    rw [plainMaxGo] at h
    obtain ⟨rfl, -⟩ : m0 = G ∧ cs = cs' := by simpa using h
    exact ⟨h1, h2⟩
  | succ n ih =>
    intro cs m0 G cs' h h1 h2
    cases cs with
    | nil => exact absurd h (by simp [plainMaxGo])
    | cons c rest =>
      rw [plainMaxGo] at h
      cases hfc : f c with
      | none => rw [hfc] at h; exact absurd h (by simp)
      | some ec =>
        obtain ⟨e1, c1⟩ := ec
        rw [hfc] at h
        simp only [Option.map_eq_some'] at h
        obtain ⟨r, hr, hr2⟩ := h
        have hb := hf c e1 c1 hfc
        have h3 := ih rest (max m0 e1) r.1 r.2 (by simpa using hr)
          (by omega) (by omega)
        have hG : r.1 = G := congrArg Prod.fst hr2
        omega

/-- The plain minimizing loop keeps values within the sentinels. -/
theorem plainMinGo_bounds (f : Node → Option (Int × Node))
    (hf : ∀ c e c', f c = some (e, c') → -9999999 ≤ e ∧ e ≤ 9999999) :
    ∀ (cc : Nat) (cs : List Node) (m0 G : Int) (cs' : List Node),
      plainMinGo f cc cs m0 = some (G, cs') →
      -9999999 ≤ m0 → m0 ≤ 9999999 → -9999999 ≤ G ∧ G ≤ 9999999 := by
  intro cc
  induction cc with
  | zero =>
    intro cs m0 G cs' h h1 h2
    rw [plainMinGo] at h
    obtain ⟨rfl, -⟩ : m0 = G ∧ cs = cs' := by simpa using h
    exact ⟨h1, h2⟩
  | succ n ih =>
    intro cs m0 G cs' h h1 h2
    cases cs with
    | nil => exact absurd h (by simp [plainMinGo])
    | cons c rest =>
      rw [plainMinGo] at h
      cases hfc : f c with
      | none => rw [hfc] at h; exact absurd h (by simp)
      | some ec =>
        obtain ⟨e1, c1⟩ := ec
        rw [hfc] at h
        simp only [Option.map_eq_some'] at h
        obtain ⟨r, hr, hr2⟩ := h
        have hb := hf c e1 c1 hfc
        have h3 := ih rest (min m0 e1) r.1 r.2 (by simpa using hr)
          (by omega) (by omega)
        have hG : r.1 = G := congrArg Prod.fst hr2
        omega

/-- Values of the non-pruning search stay within the sentinels ±9999999. -/
theorem minimaxPlain_bounds :
    ∀ (d : Nat) (t : Node) (m : Bool) (g : Int) (t₁ : Node),
      minimaxPlain t d m = some (g, t₁) → -9999999 ≤ g ∧ g ≤ 9999999 := by
  intro d
  induction d with
  | zero =>
    intro t m g t₁ h
    simp only [minimaxPlain, Option.map_eq_some'] at h
    obtain ⟨hv, hh, ht⟩ := h
    have := heuristic_bounds hh
    have hg : hv = g := congrArg Prod.fst ht
    omega
  | succ n ih =>
    intro t m g t₁ h
    rw [minimaxPlain] at h
    cases hgo : isGameOver t.state with
    | none => rw [hgo] at h; exact absurd h (by simp)
    | some go =>
      rw [hgo] at h
      cases go with
      | true =>
        simp only [Option.map_eq_some'] at h
        obtain ⟨hv, hh, ht⟩ := h
        have := heuristic_bounds hh
        have hg : hv = g := congrArg Prod.fst ht
        omega
      | false =>
        cases m with
        | true =>
          simp only [if_true, Option.map_eq_some'] at h
          obtain ⟨r, hr, hr2⟩ := h
          have hg : r.1 = g := congrArg Prod.fst hr2
          have := plainMaxGo_bounds _
            (fun c e c' hc => ih c false e c' hc)
            t.childCount t.children (-9999999) r.1 r.2
            (by simpa using hr) (by omega) (by omega)
          omega
        | false =>
          simp only [Bool.false_eq_true, if_false, Option.map_eq_some'] at h
          obtain ⟨r, hr, hr2⟩ := h
          have hg : r.1 = g := congrArg Prod.fst hr2
          have := plainMinGo_bounds _
            (fun c e c' hc => ih c true e c' hc)
            t.childCount t.children 9999999 r.1 r.2
            (by simpa using hr) (by omega) (by omega)
          omega

/-- Fail-soft correctness of the maximizing alpha-beta loop, relative to the
plain loop: with the stated invariants tying the running `alpha`, `max_eval`
and the plain accumulator together, the returned value equals the plain
value inside the window `(α, β)` and bounds it from the failing side
otherwise. -/
theorem abMaxGo_correct
    (f_ab : Node → Int → Int → Option (Int × Node))
    (f_p : Node → Option (Int × Node))
    (alpha beta : Int)
    (hc : ∀ (c : Node) (a gc : Int) (tc : Node), alpha ≤ a → a < beta →
      f_p c = some (gc, tc) →
      ∃ rc tc2, f_ab c a beta = some (rc, tc2) ∧
        (rc ≤ a → gc ≤ rc) ∧ (a < rc ∧ rc < beta → rc = gc) ∧
        (beta ≤ rc → rc ≤ gc)) :
    ∀ (cc : Nat) (cs : List Node) (A M P G : Int) (cs₁ : List Node),
      plainMaxGo f_p cc cs P = some (G, cs₁) →
      alpha ≤ A → A < beta → A ≤ max alpha M →
      (M ≤ alpha → P ≤ M) → (alpha < M ∧ M < beta → M = P) →
      (beta ≤ M → M ≤ P) →
      ∃ r A2 cs₂, abMaxGo f_ab cc cs A beta M = some (r, A2, cs₂) ∧
        (r ≤ alpha → G ≤ r) ∧ (alpha < r ∧ r < beta → r = G) ∧
        (beta ≤ r → r ≤ G) := by
  intro cc
  induction cc with
  | zero =>
    intro cs A M P G cs₁ h hA1 hA2 hA3 hV3 hV4 hV5
    rw [plainMaxGo] at h
    obtain ⟨rfl, -⟩ : P = G ∧ cs = cs₁ := by simpa using h
    exact ⟨M, A, cs, by rw [abMaxGo], hV3, hV4, hV5⟩
  | succ n ih =>
    intro cs A M P G cs₁ h hA1 hA2 hA3 hV3 hV4 hV5
    cases cs with
    | nil => exact absurd h (by simp [plainMaxGo])
    | cons c rest =>
      rw [plainMaxGo] at h
      cases hfp : f_p c with
      | none => rw [hfp] at h; exact absurd h (by simp)
      | some ec =>
        obtain ⟨g1, c1⟩ := ec
        rw [hfp] at h
        simp only [Option.map_eq_some'] at h
        obtain ⟨rp, hrp, hrp2⟩ := h
        have hGe : rp.1 = G := congrArg Prod.fst hrp2
        have hPmono := plainMaxGo_ge f_p n rest (max P g1) rp.1 rp.2
          (by simpa using hrp)
        obtain ⟨r1, tc2, hab1, hc1, hc2, hc3⟩ := hc c A g1 c1 hA1 hA2 hfp
        rw [abMaxGo, hab1]
        simp only []
        by_cases hcut : beta ≤ max A r1
        · rw [if_pos hcut]
          exact ⟨max M r1, max A r1, tc2 :: rest, rfl, by omega, by omega,
            by omega⟩
        · rw [if_neg hcut]
          obtain ⟨r, A2, cs₂, habrec, k1, k2, k3⟩ :=
            ih rest (max A r1) (max M r1) (max P g1) rp.1 rp.2
              (by simpa using hrp)
              (by omega) (by omega) (by omega) (by omega) (by omega) (by omega)
          exact ⟨r, A2, tc2 :: cs₂, by rw [habrec]; rfl, by omega, by omega,
            by omega⟩

/-- Fail-soft correctness of the minimizing alpha-beta loop. -/
theorem abMinGo_correct
    (f_ab : Node → Int → Int → Option (Int × Node))
    (f_p : Node → Option (Int × Node))
    (alpha beta : Int)
    (hc : ∀ (c : Node) (b gc : Int) (tc : Node), alpha < b → b ≤ beta →
      f_p c = some (gc, tc) →
      ∃ rc tc2, f_ab c alpha b = some (rc, tc2) ∧
        (rc ≤ alpha → gc ≤ rc) ∧ (alpha < rc ∧ rc < b → rc = gc) ∧
        (b ≤ rc → rc ≤ gc)) :
    ∀ (cc : Nat) (cs : List Node) (B M P G : Int) (cs₁ : List Node),
      plainMinGo f_p cc cs P = some (G, cs₁) →
      B ≤ beta → alpha < B → min beta M ≤ B →
      (M ≤ alpha → P ≤ M) → (alpha < M ∧ M < beta → M = P) →
      (beta ≤ M → M ≤ P) →
      ∃ r B2 cs₂, abMinGo f_ab cc cs alpha B M = some (r, B2, cs₂) ∧
        (r ≤ alpha → G ≤ r) ∧ (alpha < r ∧ r < beta → r = G) ∧
        (beta ≤ r → r ≤ G) := by
  intro cc
  induction cc with
  | zero =>
    intro cs B M P G cs₁ h hB1 hB2 hB3 hV3 hV4 hV5
    rw [plainMinGo] at h
    obtain ⟨rfl, -⟩ : P = G ∧ cs = cs₁ := by simpa using h
    exact ⟨M, B, cs, by rw [abMinGo], hV3, hV4, hV5⟩
  | succ n ih =>
    intro cs B M P G cs₁ h hB1 hB2 hB3 hV3 hV4 hV5
    cases cs with
    | nil => exact absurd h (by simp [plainMinGo])
    | cons c rest =>
      rw [plainMinGo] at h
      cases hfp : f_p c with
      | none => rw [hfp] at h; exact absurd h (by simp)
      | some ec =>
        obtain ⟨g1, c1⟩ := ec
        rw [hfp] at h
        simp only [Option.map_eq_some'] at h
        obtain ⟨rp, hrp, hrp2⟩ := h
        have hGe : rp.1 = G := congrArg Prod.fst hrp2
        have hPmono := plainMinGo_le f_p n rest (min P g1) rp.1 rp.2
          (by simpa using hrp)
        obtain ⟨r1, tc2, hab1, hc1, hc2, hc3⟩ := hc c B g1 c1 hB2 hB1 hfp
        rw [abMinGo, hab1]
        simp only []
        by_cases hcut : min B r1 ≤ alpha
        · rw [if_pos hcut]
          exact ⟨min M r1, min B r1, tc2 :: rest, rfl, by omega, by omega,
            by omega⟩
        · rw [if_neg hcut]
          obtain ⟨r, B2, cs₂, habrec, k1, k2, k3⟩ :=
            ih rest (min B r1) (min M r1) (min P g1) rp.1 rp.2
              (by simpa using hrp)
              (by omega) (by omega) (by omega) (by omega) (by omega) (by omega)
          exact ⟨r, B2, tc2 :: cs₂, by rw [habrec]; rfl, by omega, by omega,
            by omega⟩

/-- Fail-soft correctness of the alpha-beta search relative to the plain
search: same value inside the window, a bound on the failing side
otherwise. -/
theorem minimaxAB_correct :
    ∀ (d : Nat) (t : Node) (m : Bool) (alpha beta g : Int) (t₁ : Node),
      alpha < beta → minimaxPlain t d m = some (g, t₁) →
      ∃ r t₂, minimaxAB t d alpha beta m = some (r, t₂) ∧
        (r ≤ alpha → g ≤ r) ∧ (alpha < r ∧ r < beta → r = g) ∧
        (beta ≤ r → r ≤ g) := by
  intro d
  induction d with
  | zero =>
    intro t m alpha beta g t₁ hab h
    simp only [minimaxPlain, Option.map_eq_some'] at h
    obtain ⟨hv, hh, ht⟩ := h
    have hg : hv = g := congrArg Prod.fst ht
    subst hg
    exact ⟨hv, t, by simp [minimaxAB, hh], fun _ => le_refl _, fun _ => rfl,
      fun _ => le_refl _⟩
  | succ n ih =>
    intro t m alpha beta g t₁ hab h
    rw [minimaxPlain] at h
    rw [minimaxAB]
    cases hgo : isGameOver t.state with
    | none => rw [hgo] at h; exact absurd h (by simp)
    | some go =>
      cases go with
      | true =>
        rw [hgo] at h
        simp only [Option.map_eq_some'] at h
        obtain ⟨hv, hh, ht⟩ := h
        have hg : hv = g := congrArg Prod.fst ht
        subst hg
        exact ⟨hv, t, by simp [hh], fun _ => le_refl _, fun _ => rfl,
          fun _ => le_refl _⟩
      | false =>
        rw [hgo] at h
        cases m with
        | true =>
          simp only [if_true, Option.map_eq_some'] at h
          obtain ⟨rp, hrp, hrp2⟩ := h
          have hge : rp.1 = g := congrArg Prod.fst hrp2
          obtain ⟨r, A2, cs₂, hloop, k1, k2, k3⟩ :=
            abMaxGo_correct (fun c a b' => minimaxAB c n a b' false)
              (fun c => minimaxPlain c n false) alpha beta
              (fun c a gc tc _ ha2 hfp => ih c false a beta gc tc ha2 hfp)
              t.childCount t.children alpha (-9999999) (-9999999) rp.1 rp.2
              (by simpa using hrp) (le_refl alpha) hab (le_max_left alpha _)
              (fun _ => le_refl _) (fun _ => rfl) (fun _ => le_refl _)
          refine ⟨r, Node.mk cs₂ t.childCount t.moveList t.state r, ?_,
            by omega, by omega, by omega⟩
          rw [if_pos rfl, hloop]
          rfl
        | false =>
          simp only [Bool.false_eq_true, if_false, Option.map_eq_some'] at h
          obtain ⟨rp, hrp, hrp2⟩ := h
          have hge : rp.1 = g := congrArg Prod.fst hrp2
          obtain ⟨r, B2, cs₂, hloop, k1, k2, k3⟩ :=
            abMinGo_correct (fun c a b' => minimaxAB c n a b' true)
              (fun c => minimaxPlain c n true) alpha beta
              (fun c b gc tc hb1 _ hfp => ih c true alpha b gc tc hb1 hfp)
              t.childCount t.children beta 9999999 9999999 rp.1 rp.2
              (by simpa using hrp) (le_refl beta) hab (min_le_left beta _)
              (fun _ => le_refl _) (fun _ => rfl) (fun _ => le_refl _)
          refine ⟨r, Node.mk cs₂ t.childCount t.moveList t.state r, ?_,
            by omega, by omega, by omega⟩
          rw [if_neg (by simp), hloop]
          rfl

/-- C3 amended: on trees built by `CreateTree`, the alpha-beta search at
the root window (-99999999, 99999999), maximizing iff the player is Black,
returns the same root value as the non-pruning variant (the `val`
annotation of a fully visited node may differ — see the counterexample). -/
theorem minimax_root_value_equiv (board : Board) (player : Char) (d : Nat)
    (t : Node) (hct : CreateTree board d player = some t)
    (g : Int) (t₁ : Node)
    (hplain : minimaxPlain t d (decide (player = 'b')) = some (g, t₁)) :
    ∃ t₂, minimaxAB t d (-99999999) 99999999 (decide (player = 'b')) =
      some (g, t₂) := by
  obtain ⟨hg1, hg2⟩ := minimaxPlain_bounds d t _ g t₁ hplain
  obtain ⟨r, t₂, hab, k1, k2, k3⟩ :=
    minimaxAB_correct d t (decide (player = 'b')) (-99999999) 99999999 g t₁
      (by omega) hplain
  have hr : r = g := by omega
  exact ⟨t₂, by rw [← hr]; exact hab⟩

/-- Board for the root-equivalence witness: a single Black disc on the
(0,7) corner, a terminal position of heuristic value 11. -/
def boardC3w : Board := List.flatten (List.map String.toList
  [ "-------b"
  , "--------"
  , "--------"
  , "--------"
  , "--------"
  , "--------"
  , "--------"
  , "--------" ])

/-- The leaf `CreateTree` builds for `boardC3w`. -/
def nodeC3w : Node := Node.mk [] 0 [] boardC3w 0

/-- Witness for the amended C3 theorem. -/
theorem minimax_root_value_equiv_witness :
    ∃ t₂, minimaxAB nodeC3w 1 (-99999999) 99999999 (decide ('b' = 'b')) =
      some (11, t₂) :=
  minimax_root_value_equiv boardC3w 'b' 1 nodeC3w (by rfl) 11 nodeC3w (by rfl)
